import Mathlib

/-!
Verification development for the Impala HDFS sequence-file scanner
(`be/src/exec/hdfs-sequence-scanner.h`) and the adjacent decimal runtime header
(`be/src/runtime/decimal-value.h` excerpt).

The repository excerpt contains the class declarations, the binary format
grammar, and the per-method documentation, but not the method bodies
(`hdfs-sequence-scanner.cc` / `decimal-value.inline.h` are absent).  The
decoders below are therefore modelled from the specification's component
contracts (spec sections 4.1 to 4.6 and section 6) and from the grammar and
doc comments in the header, and the claims are settled against these models.

Modelling conventions:
* a byte stream is a `List Nat` consumed from the front; a position in the
  whole file is recovered as `data.length - remaining.length`;
* machine integers are `Nat`/`Int` (the 4-byte big-endian signed field is
  decoded through `int32OfBytes`, with the two's-complement wrap explicit);
* fallible operations return `Except Err`, mirroring the spec's error
  taxonomy (section 7);
* looping decoders take an explicit fuel argument (structural recursion, so
  that concrete runs reduce by `decide`/`rfl`); top-level wrappers supply
  fuel that is proved adequate in the lemmas.
-/

namespace SeqScan

/-- Error taxonomy of the scanner, following spec section 7:
structural format errors, sync mismatch, key/value count mismatch in a
block-compressed block, and a truncated VInt. -/
inductive Err : Type
  | formatError : Err
  | syncMismatch : Err
  | countMismatch : Err
  | vintDecodeError : Err
  deriving DecidableEq, Repr

/-- A decoded record: key bytes and value bytes. -/
abbrev Rec := List Nat × List Nat

/-- Read exactly `n` bytes from the front of the stream; `none` when the
stream is too short. -/
def takeN (n : Nat) (l : List Nat) : Option (List Nat × List Nat) :=
  if n ≤ l.length then some (l.take n, l.drop n) else none

/-- Decode a 4-byte big-endian signed 32-bit integer (two's complement). -/
def int32OfBytes (b0 b1 b2 b3 : Nat) : Int :=
  let u : Nat := b0 % 256 * 16777216 + b1 % 256 * 65536 + b2 % 256 * 256 + b3 % 256
  if u < 2147483648 then (u : Int) else (u : Int) - 4294967296

/-- Encode a natural number below `2^31` as a 4-byte big-endian integer. -/
def int32beN (n : Nat) : List Nat :=
  [n / 16777216 % 256, n / 65536 % 256, n / 256 % 256, n % 256]

/-- The on-disk form of the reserved length sentinel `SYNC_MARKER = -1`:
four `0xFF` bytes. -/
def sentinelBytes : List Nat := [255, 255, 255, 255]

/-- Size of the sync hash field (`SYNC_HASH_SIZE`). -/
def SYNC_HASH_SIZE : Nat := 16

/-- The fixed key length (`SEQFILE_KEY_LENGTH`): keys are always 4 bytes. -/
def SEQFILE_KEY_LENGTH : Nat := 4

/-- Fueled VInt encoder: the low seven bits go out first, each byte's high
bit is set when more bytes follow (grammar lines 129-132 of the header). -/
def vintEncodeF : Nat → Nat → List Nat
  | 0, _ => []
  | fuel + 1, n =>
    if n < 128 then [n] else (n % 128 + 128) :: vintEncodeF fuel (n / 128)

/-- VInt encoder with adequate fuel. -/
def vintEncode (n : Nat) : List Nat := vintEncodeF (n + 1) n

/-- VInt decoder: bytes with the high bit set continue the integer, the low
seven bits of successive bytes are assembled least-significant-group-first.
A stream that ends before a terminating byte yields `VIntDecodeError`
(spec sections 4.1 and 7). -/
def vintDecode : List Nat → Except Err (Nat × List Nat)
  | [] => .error .vintDecodeError
  | b :: rest =>
    if b < 128 then .ok (b, rest)
    else
      match vintDecode rest with
      | .ok (v, r) => .ok (b - 128 + 128 * v, r)
      | .error e => .error e

/-- The `SEQFILE_VERSION_HEADER` magic: the bytes `'S' 'E' 'Q' 6`. -/
def SEQFILE_VERSION_HEADER : List Nat := [83, 69, 81, 6]

/-- `SEQFILE_KEY_CLASS_NAME`: the ASCII bytes of
`org.apache.hadoop.io.BytesWritable`. -/
def SEQFILE_KEY_CLASS_NAME : List Nat :=
  [111, 114, 103, 46, 97, 112, 97, 99, 104, 101, 46, 104, 97, 100, 111, 111,
   112, 46, 105, 111, 46, 66, 121, 116, 101, 115, 87, 114, 105, 116, 97, 98,
   108, 101]

/-- `SEQFILE_VALUE_CLASS_NAME`: the ASCII bytes of
`org.apache.hadoop.io.Text`. -/
def SEQFILE_VALUE_CLASS_NAME : List Nat :=
  [111, 114, 103, 46, 97, 112, 97, 99, 104, 101, 46, 104, 97, 100, 111, 111,
   112, 46, 105, 111, 46, 84, 101, 120, 116]

/-- Read a `Text` field: a VInt length prefix followed by that many bytes
(grammar line 136 of the header). -/
def readText (l : List Nat) : Except Err (List Nat × List Nat) :=
  match vintDecode l with
  | .error e => .error e
  | .ok (n, r) =>
    match takeN n r with
    | none => .error .formatError
    | some (s, r2) => .ok (s, r2)

/-- The decoded sequence-file header (spec section 3, `FileHeader`): the
compression flags, the codec identifier (empty when uncompressed), the
metadata map (parsed but not semantically used) and the 16-byte sync hash. -/
structure SeqHeader : Type where
  isCompressed : Bool
  isBlkCompressed : Bool
  codec : List Nat
  metadata : List (List Nat × List Nat)
  sync : List Nat
  deriving DecidableEq, Repr

/-- Read `count` metadata string pairs (`Map<Text, Text>`). -/
def readMetadataPairs : Nat → List Nat → Except Err (List (List Nat × List Nat) × List Nat)
  | 0, l => .ok ([], l)
  | count + 1, l =>
    match readText l with
    | .error e => .error e
    | .ok (k, r1) =>
      match readText r1 with
      | .error e => .error e
      | .ok (v, r2) =>
        match readMetadataPairs count r2 with
        | .error e => .error e
        | .ok (ps, r3) => .ok ((k, v) :: ps, r3)

/-- Modelled from the spec: `HdfsSequenceScanner::ReadFileHeader` (body not in
`src/`).  Following spec section 4.3 and section 6: validate the 4-byte magic
exactly; read and validate the key-class and value-class strings against the
fixed expected values (mismatch is a fatal `FormatError`); read the two
compression-flag bytes; read the codec identifier when compressed; read the
metadata map; read and store the 16-byte sync. -/
def readFileHeader (l : List Nat) : Except Err (SeqHeader × List Nat) :=
  match takeN 4 l with
  | none => .error .formatError
  | some (magic, r0) =>
    if magic ≠ SEQFILE_VERSION_HEADER then .error .formatError
    else
      match readText r0 with
      | .error e => .error e
      | .ok (kc, r1) =>
        if kc ≠ SEQFILE_KEY_CLASS_NAME then .error .formatError
        else
          match readText r1 with
          | .error e => .error e
          | .ok (vc, r2) =>
            if vc ≠ SEQFILE_VALUE_CLASS_NAME then .error .formatError
            else
              match r2 with
              | cb :: bb :: r3 =>
                let isC : Bool := cb ≠ 0
                let isB : Bool := bb ≠ 0
                match (if isC then readText r3 else .ok ([], r3)) with
                | .error e => .error e
                | .ok (codec, r4) =>
                  match r4 with
                  | c0 :: c1 :: c2 :: c3 :: r5 =>
                    let count := int32OfBytes c0 c1 c2 c3
                    if count < 0 then .error .formatError
                    else
                      match readMetadataPairs count.toNat r5 with
                      | .error e => .error e
                      | .ok (md, r6) =>
                        match takeN SYNC_HASH_SIZE r6 with
                        | none => .error .formatError
                        | some (sync, r7) =>
                          .ok (⟨isC, isB, codec, md, sync⟩, r7)
                  | _ => .error .formatError
              | _ => .error .formatError

/-- Serialize a `Text` field. -/
def serText (s : List Nat) : List Nat := vintEncode s.length ++ s

/-- Serialize a header per the grammar in the source (spec section 6):
magic, key-class name, value-class name, the two flag bytes, the codec name
(only when compressed), the count-prefixed metadata map, the sync hash. -/
def serializeHeader (H : SeqHeader) : List Nat :=
  SEQFILE_VERSION_HEADER ++
  serText SEQFILE_KEY_CLASS_NAME ++
  serText SEQFILE_VALUE_CLASS_NAME ++
  [if H.isCompressed then 1 else 0, if H.isBlkCompressed then 1 else 0] ++
  (if H.isCompressed then serText H.codec else []) ++
  int32beN H.metadata.length ++
  (H.metadata.map fun p => serText p.1 ++ serText p.2).flatten ++
  H.sync

/-- Modelled from the spec: the sync-validator `check_sync()` operation of
spec section 4.2 (the peek-then-decide step of
`HdfsSequenceScanner::ReadBlockHeader`, body not in `src/`).  Peek a 4-byte
length field; if it equals the reserved sentinel `-1`, consume it and the
following 16 bytes, validate them against the header sync, and report
`true`; otherwise leave the stream untouched and report `false`. -/
def checkSync (hash : List Nat) (l : List Nat) : Except Err (Bool × List Nat) :=
  match l with
  | b0 :: b1 :: b2 :: b3 :: rest =>
    if int32OfBytes b0 b1 b2 b3 = -1 then
      match takeN SYNC_HASH_SIZE rest with
      | none => .error .formatError
      | some (h, r) =>
        if h = hash then .ok (true, r) else .error .syncMismatch
    else .ok (false, l)
  | _ => .error .formatError

/-- Peek a 4-byte big-endian integer without consuming it. -/
def peekInt32 : List Nat → Option Int
  | b0 :: b1 :: b2 :: b3 :: _ => some (int32OfBytes b0 b1 b2 b3)
  | _ => none

/-- Result of one `GetRecord` step on the uncompressed / record-compressed
path: end of stream, end of scan range (a sync marker at or past the range's
end offset), or one fully decoded record together with the rest of the
stream. -/
inductive StepResult : Type
  | eof : StepResult
  | eosr : StepResult
  | record (key value : List Nat) (rest : List Nat) : StepResult
  deriving DecidableEq, Repr

/-- Modelled from the spec: `HdfsSequenceScanner::GetRecord` (body not in
`src/`), following spec section 4.5 and the ownership rule of section 4.4.
`stopRem` is the scan range's end offset translated into remaining-suffix
length (`stopRem = file_length - end_offset`), so "the sync marker's
position is at or past the end offset" reads `l.length ≤ stopRem`.

Read the record length; if it is the sentinel `-1` this is a sync marker:
when it sits at or past the range's end offset the step reports end of scan
range (the following records belong to the adjacent range), otherwise the
sync is consumed, validated against the header sync, and the read retried.
For a genuine record length, read the key length (which must equal
`SEQFILE_KEY_LENGTH = 4`, else `FormatError`), the key bytes, and the
remaining `length - key_length` bytes as the value, decompressing the value
through `dv` (the identity for uncompressed files).  A record begun before
the boundary is decoded in full even when it straddles the end offset. -/
def getRecordF (hash : List Nat) (stopRem : Nat) (dv : List Nat → List Nat) :
    Nat → List Nat → Except Err StepResult
  | _, [] => .ok .eof
  | 0, _ :: _ => .error .formatError
  | fuel + 1, b0 :: b1 :: b2 :: b3 :: rest =>
    let L := int32OfBytes b0 b1 b2 b3
    if L = -1 then
      if rest.length + 4 ≤ stopRem then .ok .eosr
      else
        match takeN SYNC_HASH_SIZE rest with
        | none => .error .formatError
        | some (h, r) =>
          if h = hash then getRecordF hash stopRem dv fuel r
          else .error .syncMismatch
    else if L < 4 then .error .formatError
    else
      match rest with
      | k0 :: k1 :: k2 :: k3 :: r2 =>
        if int32OfBytes k0 k1 k2 k3 ≠ (SEQFILE_KEY_LENGTH : Int) then
          .error .formatError
        else
          match takeN SEQFILE_KEY_LENGTH r2 with
          | none => .error .formatError
          | some (key, r3) =>
            match takeN (L.toNat - SEQFILE_KEY_LENGTH) r3 with
            | none => .error .formatError
            | some (vraw, r4) => .ok (.record key (dv vraw) r4)
      | _ => .error .formatError
  | _ + 1, _ => .error .formatError

/-- Modelled from the spec: the record-decoding loop of the scan driver for
uncompressed / record-compressed files (spec sections 4.5 and 2): repeatedly
pull records via `GetRecord` until end of stream or end of scan range. -/
def scanRecordsF (hash : List Nat) (stopRem : Nat) (dv : List Nat → List Nat) :
    Nat → List Nat → Except Err (List Rec)
  | 0, l => if l = [] then .ok [] else .error .formatError
  | fuel + 1, l =>
    match getRecordF hash stopRem dv (fuel + 1) l with
    | .error e => .error e
    | .ok .eof => .ok []
    | .ok .eosr => .ok []
    | .ok (.record k v rest) =>
      match scanRecordsF hash stopRem dv fuel rest with
      | .error e => .error e
      | .ok rs => .ok ((k, v) :: rs)

/-- Decode a whole buffer as a VInt sequence, iterating until the declared
byte size is exhausted (spec section 3, `CompressedBlock`); a buffer ending
mid-integer yields `VIntDecodeError`. -/
def vintListF : Nat → List Nat → Except Err (List Nat)
  | _, [] => .ok []
  | 0, _ :: _ => .error .vintDecodeError
  | fuel + 1, l =>
    match vintDecode l with
    | .error e => .error e
    | .ok (n, r) =>
      match vintListF fuel r with
      | .error e => .error e
      | .ok ns => .ok (n :: ns)

/-- Slice a byte buffer into consecutive pieces of the given lengths. -/
def sliceBy : List Nat → List Nat → List (List Nat)
  | [], _ => []
  | n :: ns, bytes => bytes.take n :: sliceBy ns (bytes.drop n)

/-- Modelled from the spec: `HdfsSequenceScanner::ReadCompressedBlock` (body
not in `src/`), following spec section 4.6 and the block-compressed grammar
(header lines 102-111).  Validate and consume the preceding sync; read the
four VInt-size-prefixed sub-blocks (key-lengths, keys, value-lengths,
values); decompress each through `decomp`; decode the two length sub-blocks
with the VInt codec; fail with `CountMismatchError` when the count of
decoded key lengths differs from the count of decoded value lengths;
otherwise materialize the buffered key/value pairs in order. -/
def readCompressedBlock (decomp : List Nat → List Nat) (hash : List Nat)
    (l : List Nat) : Except Err (List Rec × List Nat) :=
  match checkSync hash l with
  | .error e => .error e
  | .ok (false, _) => .error .formatError
  | .ok (true, r0) =>
    match readText r0 with
    | .error e => .error e
    | .ok (klb, r1) =>
      match readText r1 with
      | .error e => .error e
      | .ok (kb, r2) =>
        match readText r2 with
        | .error e => .error e
        | .ok (vlb, r3) =>
          match readText r3 with
          | .error e => .error e
          | .ok (vb, r4) =>
            let dklb := decomp klb
            match vintListF dklb.length dklb with
            | .error e => .error e
            | .ok keyLens =>
              let dvlb := decomp vlb
              match vintListF dvlb.length dvlb with
              | .error e => .error e
              | .ok valueLens =>
                if keyLens.length ≠ valueLens.length then .error .countMismatch
                else
                  .ok ((sliceBy keyLens (decomp kb)).zip
                         (sliceBy valueLens (decomp vb)), r4)

/-- Modelled from the spec: the block-decoding loop of the scan driver for
block-compressed files (spec sections 4.5 and 4.6).  Every block is preceded
by a sync; before reading a block, a block whose sync sits at or past the
scan range's end offset ends the range. -/
def scanBlocksF (decomp : List Nat → List Nat) (hash : List Nat)
    (stopRem : Nat) : Nat → List Nat → Except Err (List Rec)
  | 0, l => if l = [] then .ok [] else .error .formatError
  | fuel + 1, l =>
    match l with
    | [] => .ok []
    | _ :: _ =>
      if l.length ≤ stopRem then .ok []
      else
        match readCompressedBlock decomp hash l with
        | .error e => .error e
        | .ok (rs, rest) =>
          match scanBlocksF decomp hash stopRem fuel rest with
          | .error e => .error e
          | .ok rs2 => .ok (rs ++ rs2)

/-- Does the 20-byte pattern "sentinel followed by the header sync" occur at
position `p` of the file? -/
def syncPatternAt (data hash : List Nat) (p : Nat) : Bool :=
  decide (p + 20 ≤ data.length) &&
    decide ((data.drop p).take 4 = sentinelBytes) &&
    decide ((data.drop (p + 4)).take SYNC_HASH_SIZE = hash)

/-- Fueled forward search for the sync pattern, byte by byte from `p`. -/
def findSyncPosF (data hash : List Nat) : Nat → Nat → Option Nat
  | 0, _ => none
  | fuel + 1, p =>
    if p + 20 > data.length then none
    else if syncPatternAt data hash p then some p
    else findSyncPosF data hash fuel (p + 1)

/-- Modelled from the spec: `HdfsSequenceScanner::FindFirstRecord` (body not
in `src/`), following spec section 4.4: scan forward from the start offset,
byte by byte, for a 4-byte sequence equal to the sentinel followed by 16
bytes equal to the header sync; the first such match is where the scan
starts.  `none` when no match exists up to the end of the file. -/
def findFirstRecord (data hash : List Nat) (s : Nat) : Option Nat :=
  findSyncPosF data hash (data.length + 1) s

/-- Modelled from the spec: one scanner instance processing the scan range
`[s, e)` of `data` (spec sections 2, 4.4 and 5).  The scanner re-reads the
file header itself; when the range does not start at the file start it runs
`FindFirstRecord` from its own start offset, producing no records when the
match is absent or sits at or past the range's end offset; it then decodes
records (dispatching on the header's block-compression flag) until the first
sync marker at or past the end offset.  `decomp` is the black-box
decompressor selected from the header's codec. -/
def scanRange (decomp : List Nat → List Nat) (data : List Nat) (s e : Nat) :
    Except Err (List Rec) :=
  match readFileHeader data with
  | .error err => .error err
  | .ok (H, afterHeader) =>
    let stopRem := data.length - e
    let dv := if H.isCompressed then decomp else id
    let start : Option (List Nat) :=
      if s = 0 then some afterHeader
      else
        match findFirstRecord data H.sync s with
        | none => none
        | some p => some (data.drop p)
    match start with
    | none => .ok []
    | some l =>
      if H.isBlkCompressed then scanBlocksF decomp H.sync stopRem l.length l
      else scanRecordsF H.sync stopRem dv l.length l

/-- Run the scanners of an N-way split independently and concatenate their
outputs in range order: the split points are `0 :: es ++ [data.length]`. -/
def multiScanOut (decomp : List Nat → List Nat) (data : List Nat) :
    Nat → List Nat → Except Err (List Rec)
  | s, [] => scanRange decomp data s data.length
  | s, e :: es =>
    match scanRange decomp data s e with
    | .error err => .error err
    | .ok rs =>
      match multiScanOut decomp data e es with
      | .error err => .error err
      | .ok rs2 => .ok (rs ++ rs2)

/-- Abstract content of a non-block-compressed file body: a sequence of sync
markers and records, following the grammar `record-block ::= record+
file-sync-hash` (header lines 27-29).  A record stores its raw key bytes and
its raw stored value bytes (already compressed when the file is
record-compressed). -/
inductive SeqItem : Type
  | sync : SeqItem
  | record (key value : List Nat) : SeqItem
  deriving DecidableEq, Repr

/-- Serialize one item: a sync is the sentinel followed by the sync hash; a
record is its length field (`key length + value length`), the key length
field, the key bytes and the value bytes (spec section 6). -/
def serItem (hash : List Nat) : SeqItem → List Nat
  | .sync => sentinelBytes ++ hash
  | .record k v => int32beN (k.length + v.length) ++ int32beN k.length ++ k ++ v

/-- On-disk size of one item (with a 16-byte sync hash). -/
def itemSize : SeqItem → Nat
  | .sync => 20
  | .record k v => 8 + k.length + v.length

/-- Serialize an item sequence. -/
def serItems (hash : List Nat) (its : List SeqItem) : List Nat :=
  (its.map (serItem hash)).flatten

/-- Is this item a sync marker? -/
def SeqItem.isSync : SeqItem → Bool
  | .sync => true
  | .record _ _ => false

/-- Records produced by one item, with the value passed through the
record-decompression function. -/
def recOut (dv : List Nat → List Nat) : SeqItem → List Rec
  | .sync => []
  | .record k v => [(k, dv v)]

/-- Total serialized size of a list of items, for a given size function. -/
def sizesSum {α : Type} (sz : α → Nat) (l : List α) : Nat := (l.map sz).sum

/-- Abstract semantics of one scan range's decode loop, generic in the item
type: emit each item's records, stopping at the first stopping item (a sync)
whose position is at or past the range's end offset.  Positions are carried
as remaining-suffix sizes: an item whose suffix has total size at most `R =
file_length - end_offset` starts at or past the end offset. -/
def gcut {α : Type} (sz : α → Nat) (stp : α → Bool) (out : α → List Rec)
    (R : Nat) : List α → List Rec
  | [] => []
  | a :: rest =>
    if stp a = true ∧ sz a + sizesSum sz rest ≤ R then []
    else out a ++ gcut sz stp out R rest

/-- Abstract counterpart of `FindFirstRecord`: the suffix beginning at the
first stopping item whose position is at or past the searching range's start
offset (`R = file_length - start_offset`); `[]` when there is none. -/
def gdrop {α : Type} (sz : α → Nat) (stp : α → Bool) (R : Nat) :
    List α → List α
  | [] => []
  | a :: rest =>
    if stp a = true ∧ sz a + sizesSum sz rest ≤ R then a :: rest
    else gdrop sz stp R rest

/-- File positions of the stopping items (the genuine sync-pattern
occurrences), starting from `base` (the serialized header's length). -/
def gSyncPositions {α : Type} (sz : α → Nat) (stp : α → Bool) :
    Nat → List α → List Nat
  | _, [] => []
  | base, a :: rest =>
    if stp a then base :: gSyncPositions sz stp (base + sz a) rest
    else gSyncPositions sz stp (base + sz a) rest

/-- Abstract semantics of one `GetRecord` step on an item sequence: skip
leading syncs (ending the range at the first one at or past the end offset),
then return the first record in full. -/
def stepItems (hash : List Nat) (dv : List Nat → List Nat) (R : Nat) :
    List SeqItem → StepResult
  | [] => .eof
  | .sync :: rest =>
    if 20 + sizesSum itemSize rest ≤ R then .eosr else stepItems hash dv R rest
  | .record k v :: rest => .record k (dv v) (serItems hash rest)

/-- Abstract content of one block-compressed block: the decoded key list and
value list (spec section 3, `CompressedBlock`). -/
structure SeqBlock : Type where
  keys : List (List Nat)
  values : List (List Nat)
  deriving DecidableEq, Repr

/-- Serialize one block: sync, then the four VInt-size-prefixed sub-blocks
(key-lengths, keys, value-lengths, values), each compressed through the
black-box `comp` (spec section 6). -/
def serBlock (comp : List Nat → List Nat) (hash : List Nat) (B : SeqBlock) :
    List Nat :=
  sentinelBytes ++ hash ++
  serText (comp (B.keys.map fun k => vintEncode k.length).flatten) ++
  serText (comp B.keys.flatten) ++
  serText (comp (B.values.map fun v => vintEncode v.length).flatten) ++
  serText (comp B.values.flatten)

/-- Serialize a block sequence. -/
def serBlocks (comp : List Nat → List Nat) (hash : List Nat)
    (bs : List SeqBlock) : List Nat :=
  (bs.map (serBlock comp hash)).flatten

/-- Records produced by one block. -/
def blockOut (B : SeqBlock) : List Rec := B.keys.zip B.values

/-- Well-formedness of the records of a non-block file: every key is 4 bytes
(the fixed key length) and every record fits a 4-byte signed length field. -/
def ValidItems (its : List SeqItem) : Prop :=
  ∀ k v, SeqItem.record k v ∈ its → k.length = 4 ∧ k.length + v.length < 2147483648

/-- A valid uncompressed / record-compressed sequence file (spec sections 3
and 8): a serialized header followed by serialized items, with a 16-byte
sync hash, well-formed records, and — the spec's "a record's sync marker
occurs only once in the file" — the 20-byte sentinel-plus-sync pattern
occurring exactly at the genuine sync positions. -/
structure ValidRecFile (data : List Nat) (H : SeqHeader)
    (its : List SeqItem) : Prop where
  hdata : data = serializeHeader H ++ serItems H.sync its
  hsync : H.sync.length = SYNC_HASH_SIZE
  hblk : H.isBlkCompressed = false
  hcodec : H.isCompressed = false → H.codec = []
  hmeta : H.metadata.length < 2147483648
  hitems : ValidItems its
  huniq : (List.range data.length).filter (syncPatternAt data H.sync) =
    gSyncPositions itemSize SeqItem.isSync (serializeHeader H).length its

/-- A valid block-compressed sequence file: a serialized header followed by
serialized blocks, each with matching key/value counts, the sync pattern
occurring exactly at the block starts. -/
structure ValidBlkFile (comp : List Nat → List Nat) (data : List Nat)
    (H : SeqHeader) (bs : List SeqBlock) : Prop where
  hdata : data = serializeHeader H ++ serBlocks comp H.sync bs
  hsync : H.sync.length = SYNC_HASH_SIZE
  hblk : H.isBlkCompressed = true
  hcodec : H.isCompressed = false → H.codec = []
  hmeta : H.metadata.length < 2147483648
  hcounts : ∀ B ∈ bs, B.keys.length = B.values.length
  huniq : (List.range data.length).filter (syncPatternAt data H.sync) =
    gSyncPositions (fun B => (serBlock comp H.sync B).length) (fun _ => true)
      (serializeHeader H).length bs

/-- A valid sequence file of either record encoding, written with the
compressor `comp`. -/
def ValidSeqFile (comp : List Nat → List Nat) (data : List Nat) : Prop :=
  (∃ H its, ValidRecFile data H its) ∨ (∃ H bs, ValidBlkFile comp data H bs)

end SeqScan

namespace ImpalaDecimal

/-- Modelled from the spec: `DecimalValue` of `be/src/runtime/decimal-value.h`
(the bodies in `decimal-value.inline.h` are not in `src/`).  The storage type
parameter is modelled as an unbounded integer; precision-based overflow is
made explicit in each operation.  Per the header's contract (lines 344-347):
"Overflow is handled by an output return parameter.  Functions should set
this to true if overflow occured and leave it *unchanged* otherwise (e.g. |=
rather than =)."  Each operation therefore takes the overflow flag as input
and returns it or-ed with its own overflow condition. -/
structure DecimalValue : Type where
  value : Int
  deriving DecidableEq, Repr

/-- Largest unscaled value representable at a precision. -/
def maxUnscaled (precision : Nat) : Int := 10 ^ precision - 1

/-- Does `v` overflow a decimal of the given precision? -/
def overflowCheck (precision : Nat) (v : Int) : Bool :=
  decide (maxUnscaled precision < |v|)

/-- Truncation of a rational toward zero. -/
def truncRat (q : ℚ) : Int := q.num / (q.den : Int)

/-- Modelled from the spec: `DecimalValue::FromInt` — assigns `d` at the
target scale, reporting overflow through the sticky flag. -/
def DecimalValue.FromInt (precision scale : Nat) (d : Int) (overflow : Bool) :
    DecimalValue × Bool :=
  let v := d * 10 ^ scale
  (⟨v⟩, overflow || overflowCheck precision v)

/-- Modelled from the spec: `DecimalValue::FromDouble` — the closest decimal
to `d` (the C++ double is modelled as a rational), rounding to nearest when
`rnd`, truncating otherwise. -/
def DecimalValue.FromDouble (precision scale : Nat) (d : ℚ) (rnd : Bool)
    (overflow : Bool) : DecimalValue × Bool :=
  let v : Int := if rnd then round (d * 10 ^ scale) else truncRat (d * 10 ^ scale)
  (⟨v⟩, overflow || overflowCheck precision v)

/-- Modelled from the spec: `DecimalValue::ScaleTo` — rescale from
`srcScale` to `dstScale`, reporting overflow against `dstPrecision`. -/
def DecimalValue.ScaleTo (x : DecimalValue) (srcScale dstScale dstPrecision : Nat)
    (overflow : Bool) : DecimalValue × Bool :=
  let v : Int :=
    if srcScale ≤ dstScale then x.value * 10 ^ (dstScale - srcScale)
    else Int.tdiv x.value (10 ^ (srcScale - dstScale))
  (⟨v⟩, overflow || overflowCheck dstPrecision v)

/-- Modelled from the spec: `DecimalValue::Add` — adjust both operands to
the larger scale and add. -/
def DecimalValue.Add (x : DecimalValue) (thisScale : Nat) (y : DecimalValue)
    (otherScale resultPrecision resultScale : Nat) (rnd : Bool)
    (overflow : Bool) : DecimalValue × Bool :=
  let m := max thisScale otherScale
  let v := x.value * 10 ^ (m - thisScale) + y.value * 10 ^ (m - otherScale)
  (⟨v⟩, overflow || overflowCheck resultPrecision v)

/-- `DecimalValue::Subtract` (body in the header, lines 426-432): implemented
as `Add` of the negated other operand. -/
def DecimalValue.Subtract (x : DecimalValue) (thisScale : Nat) (y : DecimalValue)
    (otherScale resultPrecision resultScale : Nat) (rnd : Bool)
    (overflow : Bool) : DecimalValue × Bool :=
  DecimalValue.Add x thisScale ⟨-y.value⟩ otherScale resultPrecision resultScale
    rnd overflow

/-- Modelled from the spec: `DecimalValue::Multiply`. -/
def DecimalValue.Multiply (x : DecimalValue) (thisScale : Nat) (y : DecimalValue)
    (otherScale resultPrecision resultScale : Nat) (rnd : Bool)
    (overflow : Bool) : DecimalValue × Bool :=
  let v := x.value * y.value
  (⟨v⟩, overflow || overflowCheck resultPrecision v)

/-- Modelled from the spec: `DecimalValue::Divide` (header lines 439-443):
"is_nan is set to true if 'other' is 0.  The value returned is undefined."
The result triple is `(value, is_nan, overflow)`; the model returns 0 for
the undefined value. -/
def DecimalValue.Divide (x : DecimalValue) (thisScale : Nat) (y : DecimalValue)
    (otherScale resultPrecision resultScale : Nat) (rnd : Bool)
    (overflow : Bool) : DecimalValue × Bool × Bool :=
  if y.value = 0 then (⟨0⟩, true, overflow)
  else
    let v := Int.tdiv (x.value * 10 ^ (otherScale + resultScale))
      (y.value * 10 ^ thisScale)
    (⟨v⟩, false, overflow || overflowCheck resultPrecision v)

/-- Modelled from the spec: `DecimalValue::Mod` (header lines 445-448), with
the same `is_nan` contract as `Divide`. -/
def DecimalValue.Mod (x : DecimalValue) (thisScale : Nat) (y : DecimalValue)
    (otherScale resultPrecision resultScale : Nat) (rnd : Bool)
    (overflow : Bool) : DecimalValue × Bool × Bool :=
  if y.value = 0 then (⟨0⟩, true, overflow)
  else
    let m := max thisScale otherScale
    let v := Int.tmod (x.value * 10 ^ (m - thisScale))
      (y.value * 10 ^ (m - otherScale))
    (⟨v⟩, false, overflow || overflowCheck resultPrecision v)

/-- Modelled from the spec: `DecimalValue::ToInt` (header lines 485-490):
the value as an integer of `intBits` bits, rounded half away from zero,
"setting overflow to true on overflow, and leaving unchanged otherwise". -/
def DecimalValue.ToInt (x : DecimalValue) (scale : Nat) (intBits : Nat)
    (overflow : Bool) : Int × Bool :=
  let d : Int := 10 ^ scale
  let q := Int.tdiv x.value d
  let r := Int.tmod x.value d
  let v := if d ≤ 2 * |r| then (if x.value < 0 then q - 1 else q + 1) else q
  let bound : Int := 2 ^ (intBits - 1)
  (v, overflow || decide (v < -bound ∨ bound ≤ v))

end ImpalaDecimal

namespace SeqScan

theorem takeN_exact (a r : List Nat) : takeN a.length (a ++ r) = some (a, r) := by
  simp [takeN]

theorem takeN_of_length (n : Nat) (a r : List Nat) (h : a.length = n) :
    takeN n (a ++ r) = some (a, r) := by
  subst h; exact takeN_exact a r

theorem int32OfBytes_beN (n : Nat) (h : n < 2147483648) :
    int32OfBytes (n / 16777216 % 256) (n / 65536 % 256) (n / 256 % 256)
      (n % 256) = (n : Int) := by
  have hu : n / 16777216 % 256 % 256 * 16777216 + n / 65536 % 256 % 256 * 65536 +
      n / 256 % 256 % 256 * 256 + n % 256 % 256 = n := by omega
  simp only [int32OfBytes, hu]
  rw [if_pos h]

theorem int32OfBytes_sentinel : int32OfBytes 255 255 255 255 = -1 := by decide

theorem int32beN_cons (n : Nat) :
    int32beN n = n / 16777216 % 256 :: n / 65536 % 256 :: n / 256 % 256 ::
      n % 256 :: [] := rfl

theorem vintDecode_encodeF (fuel : Nat) : ∀ (n : Nat) (rest : List Nat), n < fuel →
    vintDecode (vintEncodeF fuel n ++ rest) = .ok (n, rest) := by
  induction fuel with
  | zero => intro n rest h; exact absurd h (Nat.not_lt_zero n)
  | succ f ih =>
    intro n rest h
    by_cases h128 : n < 128
    · simp [vintEncodeF, h128, vintDecode]
    · have hrec : n / 128 < f := by omega
      simp only [vintEncodeF, if_neg h128, List.cons_append, vintDecode]
      have hc : ¬ n % 128 + 128 < 128 := by omega
      rw [if_neg hc, ih (n / 128) rest hrec]
      simp only [Except.ok.injEq, Prod.mk.injEq, and_true]
      omega

theorem vintDecode_encode (n : Nat) (rest : List Nat) :
    vintDecode (vintEncode n ++ rest) = .ok (n, rest) :=
  vintDecode_encodeF (n + 1) n rest (Nat.lt_succ_self n)

theorem vintDecode_allCont : ∀ l : List Nat, (∀ b ∈ l, 128 ≤ b) →
    vintDecode l = .error .vintDecodeError := by
  intro l
  induction l with
  | nil => intro _; rfl
  | cons b rest ih =>
    intro h
    have hb : ¬ b < 128 := by
      have := h b (by simp)
      omega
    simp [vintDecode, hb, ih (fun x hx => h x (by simp [hx]))]

theorem vintEncodeF_take_cont (fuel : Nat) : ∀ (n k : Nat), n < fuel →
    k < (vintEncodeF fuel n).length →
    ∀ b ∈ (vintEncodeF fuel n).take k, 128 ≤ b := by
  induction fuel with
  | zero => intro n k h; exact absurd h (Nat.not_lt_zero n)
  | succ f ih =>
    intro n k h hk
    by_cases h128 : n < 128
    · simp only [vintEncodeF, if_pos h128, List.length_singleton] at hk
      interval_cases k
      simp
    · have hrec : n / 128 < f := by omega
      simp only [vintEncodeF, if_neg h128] at hk ⊢
      match k with
      | 0 => simp
      | j + 1 =>
        simp only [List.take_succ_cons, List.mem_cons]
        rintro b (rfl | hb)
        · omega
        · exact ih (n / 128) j hrec (by simpa using hk) b hb

/-- C7: for every natural number, VInt encode followed by decode is the
identity, returning the value and the rest of the input (hence the number of
bytes consumed is the encoding's length), with each byte's high bit
signalling continuation and the low seven bits assembled
least-significant-group-first; decoding an encoding truncated before its
terminating byte fails with `VIntDecodeError` rather than returning a
value. -/
theorem vint_encode_decode_identity :
    (∀ (n : Nat) (rest : List Nat), vintDecode (vintEncode n ++ rest) = .ok (n, rest)) ∧
    (∀ (n k : Nat), k < (vintEncode n).length →
      vintDecode ((vintEncode n).take k) = .error .vintDecodeError) := by
  constructor
  · exact vintDecode_encode
  · intro n k hk
    exact vintDecode_allCont _
      (vintEncodeF_take_cont (n + 1) n k (Nat.lt_succ_self n) hk)

/-- Witness for C7 at a concrete two-byte encoding: 300 encodes to two
bytes, round-trips, and its one-byte truncation fails. -/
theorem vint_encode_decode_identity_witness :
    vintDecode (vintEncode 300 ++ [9]) = .ok (300, [9]) ∧
    vintDecode ((vintEncode 300).take 1) = .error .vintDecodeError :=
  ⟨vint_encode_decode_identity.1 300 [9],
   vint_encode_decode_identity.2 300 1 (by decide)⟩

/-- C4: whenever `check_sync` succeeds, it reports a sync if and only if the
peeked 4-byte length field equals the reserved sentinel `-1`; in the
non-sentinel case the stream afterwards equals the stream before the call,
and in the sentinel case the field plus the following 16 bytes — validated
to equal the header sync — have been consumed. -/
theorem checkSync_sentinel_iff (hash l : List Nat) (b : Bool) (r : List Nat)
    (h : checkSync hash l = .ok (b, r)) :
    (b = true ↔ peekInt32 l = some (-1)) ∧
    (b = false → r = l) ∧
    (b = true → r.length + 20 = l.length ∧ (l.drop 4).take SYNC_HASH_SIZE = hash) := by
  match l with
  | [] => simp [checkSync] at h
  | [b0] => simp [checkSync] at h
  | [b0, b1] => simp [checkSync] at h
  | [b0, b1, b2] => simp [checkSync] at h
  | b0 :: b1 :: b2 :: b3 :: rest =>
    simp only [checkSync] at h
    by_cases hs : int32OfBytes b0 b1 b2 b3 = -1
    · rw [if_pos hs] at h
      by_cases hlen : SYNC_HASH_SIZE ≤ rest.length
      · by_cases hh : rest.take SYNC_HASH_SIZE = hash
        · simp only [takeN, if_pos hlen, if_pos hh] at h
          obtain ⟨hb, hr⟩ := by simpa using h
          subst hb hr
          refine ⟨by simp [peekInt32, hs], by simp, fun _ => ⟨?_, ?_⟩⟩
          · simp only [List.length_drop]
            simp only [SYNC_HASH_SIZE] at hlen ⊢
            simp only [List.length_cons]
            omega
          · simpa using hh
        · simp only [takeN, if_pos hlen, if_neg hh] at h
          simp at h
      · simp only [takeN, if_neg hlen] at h
        simp at h
    · rw [if_neg hs] at h
      obtain ⟨hb, hr⟩ := by simpa using h
      subst hb hr
      refine ⟨?_, fun _ => rfl, by simp⟩
      simp [peekInt32, hs]

/-- Witness for C4: a concrete sentinel-led stream consumes 20 bytes and
reports the sync; implied by applying the theorem at that stream. -/
theorem checkSync_sentinel_iff_witness :
    (true = true ↔ peekInt32 (sentinelBytes ++ List.range 16 ++ [7]) = some (-1)) ∧
    (true = false → ([7] : List Nat) = sentinelBytes ++ List.range 16 ++ [7]) ∧
    (true = true → ([7] : List Nat).length + 20 =
        (sentinelBytes ++ List.range 16 ++ [7]).length ∧
      ((sentinelBytes ++ List.range 16 ++ [7]).drop 4).take SYNC_HASH_SIZE =
        List.range 16) :=
  checkSync_sentinel_iff (List.range 16) (sentinelBytes ++ List.range 16 ++ [7])
    true [7] (by rfl)

/-- C8: on the uncompressed / record-compressed path, after a genuine
(non-negative, non-sentinel) record length, a key-length field different
from the fixed constant `SEQFILE_KEY_LENGTH = 4` makes `GetRecord` fail
with a `FormatError` instead of returning a record; consequently any
returned record was read under a key-length field equal to 4. -/
theorem getRecord_key_length_check (hash : List Nat) (R : Nat)
    (dv : List Nat → List Nat) (fuel : Nat)
    (b0 b1 b2 b3 k0 k1 k2 k3 : Nat) (rest : List Nat)
    (hL : 0 ≤ int32OfBytes b0 b1 b2 b3) :
    (int32OfBytes k0 k1 k2 k3 ≠ 4 →
      getRecordF hash R dv (fuel + 1)
        (b0 :: b1 :: b2 :: b3 :: k0 :: k1 :: k2 :: k3 :: rest) =
        .error .formatError) ∧
    (∀ res, getRecordF hash R dv (fuel + 1)
        (b0 :: b1 :: b2 :: b3 :: k0 :: k1 :: k2 :: k3 :: rest) = .ok res →
      int32OfBytes k0 k1 k2 k3 = 4) := by
  have hs : int32OfBytes b0 b1 b2 b3 ≠ -1 := by omega
  have hfail : int32OfBytes k0 k1 k2 k3 ≠ 4 →
      getRecordF hash R dv (fuel + 1)
        (b0 :: b1 :: b2 :: b3 :: k0 :: k1 :: k2 :: k3 :: rest) =
        .error .formatError := by
    intro hK
    by_cases hL4 : int32OfBytes b0 b1 b2 b3 < 4
    · simp [getRecordF, hs, hL4]
    · simp only [getRecordF, if_neg hs, if_neg hL4]
      rw [if_pos (by simpa [SEQFILE_KEY_LENGTH] using hK)]
  refine ⟨hfail, ?_⟩
  intro res hres
  by_cases hK : int32OfBytes k0 k1 k2 k3 = 4
  · exact hK
  · rw [hfail hK] at hres
    simp at hres

/-- Witness for C8: a concrete stream whose key-length field decodes to 5
makes `GetRecord` fail with `FormatError`. -/
theorem getRecord_key_length_check_witness :
    getRecordF (List.range 16) 0 id 1
      (0 :: 0 :: 0 :: 9 :: 0 :: 0 :: 0 :: 5 :: [1, 2, 3, 4, 5, 6, 7, 8, 9]) =
      .error .formatError :=
  (getRecord_key_length_check (List.range 16) 0 id 0 0 0 0 9 0 0 0 5
    [1, 2, 3, 4, 5, 6, 7, 8, 9] (by decide)).1 (by decide)

theorem serItems_nil (hash : List Nat) : serItems hash [] = [] := rfl

theorem serItems_cons (hash : List Nat) (a : SeqItem) (its : List SeqItem) :
    serItems hash (a :: its) = serItem hash a ++ serItems hash its := by
  simp [serItems]

theorem serItems_append (hash : List Nat) (l1 l2 : List SeqItem) :
    serItems hash (l1 ++ l2) = serItems hash l1 ++ serItems hash l2 := by
  simp [serItems]

theorem serItem_length (hash : List Nat) (hsync : hash.length = SYNC_HASH_SIZE)
    (it : SeqItem) : (serItem hash it).length = itemSize it := by
  cases it with
  | sync =>
    simp [serItem, itemSize, sentinelBytes, hsync, SYNC_HASH_SIZE]
  | record k v =>
    simp [serItem, itemSize, int32beN]
    omega

theorem serItems_length (hash : List Nat) (hsync : hash.length = SYNC_HASH_SIZE) :
    ∀ its : List SeqItem, (serItems hash its).length = sizesSum itemSize its := by
  intro its
  induction its with
  | nil => rfl
  | cons a rest ih =>
    rw [serItems_cons]
    simp only [List.length_append, ih, serItem_length hash hsync a, sizesSum,
      List.map_cons, List.sum_cons]

theorem validItems_tail {a : SeqItem} {its : List SeqItem}
    (h : ValidItems (a :: its)) : ValidItems its :=
  fun k v hm => h k v (List.mem_cons_of_mem a hm)

theorem getRecord_serialized (hash : List Nat) (hsync : hash.length = SYNC_HASH_SIZE)
    (R : Nat) (dv : List Nat → List Nat) :
    ∀ (its : List SeqItem) (fuel : Nat), ValidItems its → its.length ≤ fuel →
      getRecordF hash R dv fuel (serItems hash its) = .ok (stepItems hash dv R its) := by
  intro its
  induction its with
  | nil =>
    intro fuel _ _
    cases fuel <;> simp [serItems, getRecordF, stepItems]
  | cons a rest ih =>
    intro fuel hvalid hfuel
    obtain ⟨f, rfl⟩ : ∃ f, fuel = f + 1 := ⟨fuel - 1, by simp at hfuel; omega⟩
    cases a with
    | sync =>
      rw [serItems_cons]
      have hser : serItem hash SeqItem.sync ++ serItems hash rest =
          255 :: 255 :: 255 :: 255 :: (hash ++ serItems hash rest) := by
        simp [serItem, sentinelBytes]
      rw [hser]
      have hstep : getRecordF hash R dv (f + 1)
          (255 :: 255 :: 255 :: 255 :: (hash ++ serItems hash rest)) =
          if (hash ++ serItems hash rest).length + 4 ≤ R then .ok .eosr
          else
            match takeN SYNC_HASH_SIZE (hash ++ serItems hash rest) with
            | none => .error .formatError
            | some (h, r) =>
              if h = hash then getRecordF hash R dv f r
              else .error .syncMismatch := by
        simp [getRecordF, int32OfBytes_sentinel]
      rw [hstep]
      have hlen : (hash ++ serItems hash rest).length + 4 =
          20 + sizesSum itemSize rest := by
        simp only [List.length_append, serItems_length hash hsync, hsync,
          SYNC_HASH_SIZE]
        omega
      by_cases hstop : 20 + sizesSum itemSize rest ≤ R
      · have hcond : (hash ++ serItems hash rest).length + 4 ≤ R := by omega
        rw [if_pos hcond, stepItems, if_pos hstop]
      · have hcond : ¬ ((hash ++ serItems hash rest).length + 4 ≤ R) := by omega
        rw [if_neg hcond,
          takeN_of_length SYNC_HASH_SIZE hash (serItems hash rest) hsync]
        show (if hash = hash then getRecordF hash R dv f (serItems hash rest)
          else Except.error Err.syncMismatch) = _
        rw [if_pos rfl, ih f (validItems_tail hvalid) (by simp at hfuel; omega),
          stepItems, if_neg hstop]
    | record k v =>
      obtain ⟨hk4, hbound⟩ := hvalid k v (by simp)
      rw [serItems_cons]
      have hser : serItem hash (SeqItem.record k v) ++ serItems hash rest =
          (k.length + v.length) / 16777216 % 256 ::
          (k.length + v.length) / 65536 % 256 ::
          (k.length + v.length) / 256 % 256 ::
          (k.length + v.length) % 256 ::
          (k.length / 16777216 % 256 :: k.length / 65536 % 256 ::
            k.length / 256 % 256 :: k.length % 256 ::
            (k ++ (v ++ serItems hash rest))) := by
        simp [serItem, int32beN]
      rw [hser]
      simp only [getRecordF]
      rw [int32OfBytes_beN (k.length + v.length) hbound]
      have hne : ((k.length + v.length : Nat) : Int) ≠ -1 := by omega
      rw [if_neg hne]
      have hge : ¬ ((k.length + v.length : Nat) : Int) < 4 := by omega
      rw [if_neg hge]
      rw [int32OfBytes_beN k.length (by omega)]
      have hkeq : ¬ ((k.length : Nat) : Int) ≠ (SEQFILE_KEY_LENGTH : Int) := by
        simp only [SEQFILE_KEY_LENGTH, hk4]
        omega
      rw [if_neg hkeq]
      have htk1 : takeN SEQFILE_KEY_LENGTH (k ++ (v ++ serItems hash rest)) =
          some (k, v ++ serItems hash rest) :=
        takeN_of_length _ _ _ (by simp [SEQFILE_KEY_LENGTH, hk4])
      have htoNat : (((k.length + v.length : Nat) : Int)).toNat -
          SEQFILE_KEY_LENGTH = v.length := by
        simp only [SEQFILE_KEY_LENGTH]
        omega
      simp only [htk1, htoNat,
        takeN_of_length v.length v (serItems hash rest) rfl]
      rfl

theorem stepItems_cases (hash : List Nat) (dv : List Nat → List Nat) (R : Nat) :
    ∀ its : List SeqItem,
    (stepItems hash dv R its = .eof ∧
      gcut itemSize SeqItem.isSync (recOut dv) R its = []) ∨
    (stepItems hash dv R its = .eosr ∧
      gcut itemSize SeqItem.isSync (recOut dv) R its = []) ∨
    (∃ k v rest, stepItems hash dv R its = .record k (dv v) (serItems hash rest) ∧
      gcut itemSize SeqItem.isSync (recOut dv) R its =
        (k, dv v) :: gcut itemSize SeqItem.isSync (recOut dv) R rest ∧
      rest.length < its.length ∧ (ValidItems its → ValidItems rest)) := by
  intro its
  induction its with
  | nil => exact Or.inl ⟨rfl, rfl⟩
  | cons a rest ih =>
    cases a with
    | sync =>
      by_cases hstop : 20 + sizesSum itemSize rest ≤ R
      · refine Or.inr (Or.inl ⟨?_, ?_⟩)
        · rw [stepItems, if_pos hstop]
        · rw [gcut, if_pos ⟨rfl, by simpa [itemSize] using hstop⟩]
      · have hstep : stepItems hash dv R (SeqItem.sync :: rest) =
            stepItems hash dv R rest := by
          rw [stepItems, if_neg hstop]
        have hcut : gcut itemSize SeqItem.isSync (recOut dv) R
            (SeqItem.sync :: rest) =
            gcut itemSize SeqItem.isSync (recOut dv) R rest := by
          have hnot : ¬ (SeqItem.isSync SeqItem.sync = true ∧
              itemSize SeqItem.sync + sizesSum itemSize rest ≤ R) := by
            intro hp
            exact hstop (by simpa [itemSize] using hp.2)
          rw [gcut, if_neg hnot]
          simp [recOut]
        rcases ih with ⟨he, hc⟩ | ⟨he, hc⟩ | ⟨k, v, rest2, he, hc, hlt, hval⟩
        · exact Or.inl ⟨hstep.trans he, hcut.trans hc⟩
        · exact Or.inr (Or.inl ⟨hstep.trans he, hcut.trans hc⟩)
        · exact Or.inr (Or.inr ⟨k, v, rest2, hstep.trans he, hcut.trans hc,
            Nat.lt_succ_of_lt hlt, fun hv => hval (validItems_tail hv)⟩)
    | record k v =>
      refine Or.inr (Or.inr ⟨k, v, rest, rfl, ?_, Nat.lt_succ_self _,
        validItems_tail⟩)
      rw [gcut, if_neg (by simp [SeqItem.isSync])]
      simp [recOut]

theorem scanRecords_serialized (hash : List Nat)
    (hsync : hash.length = SYNC_HASH_SIZE) (R : Nat) (dv : List Nat → List Nat) :
    ∀ (n : Nat) (its : List SeqItem) (fuel : Nat), its.length ≤ n →
      ValidItems its → its.length ≤ fuel →
      scanRecordsF hash R dv fuel (serItems hash its) =
        .ok (gcut itemSize SeqItem.isSync (recOut dv) R its) := by
  intro n
  induction n with
  | zero =>
    intro its fuel hn _ _
    have : its = [] := List.length_eq_zero.mp (Nat.le_zero.mp hn)
    subst this
    cases fuel <;> simp [serItems, scanRecordsF, getRecordF, gcut]
  | succ n ih =>
    intro its fuel hn hvalid hfuel
    cases its with
    | nil => cases fuel <;> simp [serItems, scanRecordsF, getRecordF, gcut]
    | cons a rest =>
      obtain ⟨f, rfl⟩ : ∃ f, fuel = f + 1 := ⟨fuel - 1, by simp at hfuel; omega⟩
      rw [scanRecordsF,
        getRecord_serialized hash hsync R dv (a :: rest) (f + 1) hvalid hfuel]
      rcases stepItems_cases hash dv R (a :: rest) with
        ⟨he, hc⟩ | ⟨he, hc⟩ | ⟨k, v, rest2, he, hc, hlt, hval⟩
      · rw [he, hc]
      · rw [he, hc]
      · rw [he, hc]
        have hrec := ih rest2 f (by simp at hn hlt ⊢; omega) (hval hvalid)
          (by simp at hfuel hlt ⊢; omega)
        show (match scanRecordsF hash R dv f (serItems hash rest2) with
          | Except.error e => Except.error e
          | Except.ok rs => Except.ok ((k, dv v) :: rs)) =
          Except.ok ((k, dv v) :: gcut itemSize SeqItem.isSync (recOut dv) R rest2)
        rw [hrec]

theorem gcut_gdrop_telescope {α : Type} (sz : α → Nat) (stp : α → Bool)
    (out : α → List Rec) (R1 R2 : Nat) (h : R2 ≤ R1) : ∀ l : List α,
    gcut sz stp out R1 l ++ gcut sz stp out R2 (gdrop sz stp R1 l) =
      gcut sz stp out R2 l := by
  intro l
  induction l with
  | nil => rfl
  | cons a rest ih =>
    by_cases h1 : stp a = true ∧ sz a + sizesSum sz rest ≤ R1
    · rw [gcut, if_pos h1, gdrop, if_pos h1]
      simp
    · have h2 : ¬ (stp a = true ∧ sz a + sizesSum sz rest ≤ R2) :=
        fun hp => h1 ⟨hp.1, le_trans hp.2 h⟩
      rw [gcut, if_neg h1, gdrop, if_neg h1, gcut, if_neg h2, List.append_assoc,
        ih]

theorem gdrop_gdrop {α : Type} (sz : α → Nat) (stp : α → Bool) (R1 R2 : Nat)
    (h : R2 ≤ R1) : ∀ l : List α,
    gdrop sz stp R2 (gdrop sz stp R1 l) = gdrop sz stp R2 l := by
  intro l
  induction l with
  | nil => rfl
  | cons a rest ih =>
    by_cases h1 : stp a = true ∧ sz a + sizesSum sz rest ≤ R1
    · rw [gdrop, if_pos h1]
    · have h2 : ¬ (stp a = true ∧ sz a + sizesSum sz rest ≤ R2) :=
        fun hp => h1 ⟨hp.1, le_trans hp.2 h⟩
      rw [gdrop, if_neg h1, ih, gdrop, if_neg h2]

/-- C3 counterexample: a `GetRecord` step that decodes a record whose end
lies past the scan range's end offset.  The stream holds one 15-byte record
(`file_length = 15`) and the range's end offset is 12 (`stopRem = 3`): after
the step the remaining suffix is empty, so the read position 15 has advanced
past the end offset 12 (`0 < 3`), yet the step returns the fully decoded
record and not the end-of-scan-range signal — refuting "eosr is signalled
exactly when the read position has advanced past the range's end offset".
The eosr signal is reserved for a sync marker found at or past the end
offset. -/
theorem getRecord_eosr_counterexample :
    getRecordF (List.range 16) 3 id 1
      (0 :: 0 :: 0 :: 7 :: 0 :: 0 :: 0 :: 4 :: [10, 11, 12, 13, 20, 21, 22]) =
      .ok (.record [10, 11, 12, 13] [20, 21, 22] []) ∧
    ([] : List Nat).length < 3 := by
  constructor
  · rfl
  · decide

end SeqScan

namespace ImpalaDecimal

/-- C9: `DecimalValue::Divide` and `DecimalValue::Mod` report `is_nan = true`
exactly when the divisor is zero (the value returned in that case is a
placeholder the caller must not rely on). -/
theorem divide_mod_is_nan_iff (x y : DecimalValue)
    (thisScale otherScale resultPrecision resultScale : Nat) (rnd overflow : Bool) :
    ((DecimalValue.Divide x thisScale y otherScale resultPrecision resultScale
        rnd overflow).2.1 = true ↔ y.value = 0) ∧
    ((DecimalValue.Mod x thisScale y otherScale resultPrecision resultScale
        rnd overflow).2.1 = true ↔ y.value = 0) := by
  constructor <;> by_cases hy : y.value = 0 <;>
    simp [DecimalValue.Divide, DecimalValue.Mod, hy]

/-- C10: every `DecimalValue` operation with an overflow output flag
(`FromDouble`, `FromInt`, `ScaleTo`, `Add`, `Subtract`, `Multiply`,
`Divide`, `Mod`, `ToInt`) combines its own overflow condition into the
incoming flag with an or (the header's "|= rather than =" contract): the
flag out equals the flag in or-ed with the operation's own condition, so it
is never reset and stays true across any sequence of calls once set. -/
theorem overflow_flag_sticky :
    (∀ precision scale d rnd ov, (DecimalValue.FromDouble precision scale d rnd ov).2 =
      (ov || (DecimalValue.FromDouble precision scale d rnd false).2)) ∧
    (∀ precision scale d ov, (DecimalValue.FromInt precision scale d ov).2 =
      (ov || (DecimalValue.FromInt precision scale d false).2)) ∧
    (∀ x srcScale dstScale dstPrecision ov,
      (DecimalValue.ScaleTo x srcScale dstScale dstPrecision ov).2 =
      (ov || (DecimalValue.ScaleTo x srcScale dstScale dstPrecision false).2)) ∧
    (∀ x ts y os rp rs rnd ov, (DecimalValue.Add x ts y os rp rs rnd ov).2 =
      (ov || (DecimalValue.Add x ts y os rp rs rnd false).2)) ∧
    (∀ x ts y os rp rs rnd ov, (DecimalValue.Subtract x ts y os rp rs rnd ov).2 =
      (ov || (DecimalValue.Subtract x ts y os rp rs rnd false).2)) ∧
    (∀ x ts y os rp rs rnd ov, (DecimalValue.Multiply x ts y os rp rs rnd ov).2 =
      (ov || (DecimalValue.Multiply x ts y os rp rs rnd false).2)) ∧
    (∀ x ts y os rp rs rnd ov, (DecimalValue.Divide x ts y os rp rs rnd ov).2.2 =
      (ov || (DecimalValue.Divide x ts y os rp rs rnd false).2.2)) ∧
    (∀ x ts y os rp rs rnd ov, (DecimalValue.Mod x ts y os rp rs rnd ov).2.2 =
      (ov || (DecimalValue.Mod x ts y os rp rs rnd false).2.2)) ∧
    (∀ x scale intBits ov, (DecimalValue.ToInt x scale intBits ov).2 =
      (ov || (DecimalValue.ToInt x scale intBits false).2)) := by
  refine ⟨?_, ?_, ?_, ?_, ?_, ?_, ?_, ?_, ?_⟩
  · intro precision scale d rnd ov
    simp [DecimalValue.FromDouble]
  · intro precision scale d ov
    simp [DecimalValue.FromInt]
  · intro x srcScale dstScale dstPrecision ov
    simp [DecimalValue.ScaleTo]
  · intro x ts y os rp rs rnd ov
    simp [DecimalValue.Add]
  · intro x ts y os rp rs rnd ov
    simp [DecimalValue.Subtract, DecimalValue.Add]
  · intro x ts y os rp rs rnd ov
    simp [DecimalValue.Multiply]
  · intro x ts y os rp rs rnd ov
    by_cases hy : y.value = 0 <;> simp [DecimalValue.Divide, hy]
  · intro x ts y os rp rs rnd ov
    by_cases hy : y.value = 0 <;> simp [DecimalValue.Mod, hy]
  · intro x scale intBits ov
    simp [DecimalValue.ToInt]

end ImpalaDecimal

namespace SeqScan

theorem readText_ser (s r : List Nat) : readText (serText s ++ r) = .ok (s, r) := by
  have h : serText s ++ r = vintEncode s.length ++ (s ++ r) := by
    simp [serText]
  rw [h]
  simp [readText, vintDecode_encode, takeN_exact]

theorem readMetadataPairs_ser (ps : List (List Nat × List Nat)) (r : List Nat) :
    readMetadataPairs ps.length
      ((ps.map fun p => serText p.1 ++ serText p.2).flatten ++ r) = .ok (ps, r) := by
  induction ps with
  | nil => simp [readMetadataPairs]
  | cons p ps ih =>
    obtain ⟨a, b⟩ := p
    simp only [List.map_cons, List.flatten_cons, List.length_cons,
      List.append_assoc]
    rw [readMetadataPairs]
    simp only [readText_ser, ih]

theorem readFileHeader_ser (H : SeqHeader) (body : List Nat)
    (hsync : H.sync.length = SYNC_HASH_SIZE)
    (hcodec : H.isCompressed = false → H.codec = [])
    (hmeta : H.metadata.length < 2147483648) :
    readFileHeader (serializeHeader H ++ body) = .ok (H, body) := by
  obtain ⟨isC, isB, codec, md, sync⟩ := H
  simp only at hsync hcodec hmeta
  have hser : serializeHeader ⟨isC, isB, codec, md, sync⟩ ++ body =
      SEQFILE_VERSION_HEADER ++
      (serText SEQFILE_KEY_CLASS_NAME ++
      (serText SEQFILE_VALUE_CLASS_NAME ++
      ((if isC then (1 : Nat) else 0) :: (if isB then (1 : Nat) else 0) ::
      ((if isC then serText codec else []) ++
      (int32beN md.length ++
      ((md.map fun p => serText p.1 ++ serText p.2).flatten ++
      (sync ++ body))))))) := by
    simp [serializeHeader, List.append_assoc]
  have hflag1 : ((if isC then (1 : Nat) else 0) ≠ 0 : Bool) = isC := by
    cases isC <;> decide
  have hflag2 : ((if isB then (1 : Nat) else 0) ≠ 0 : Bool) = isB := by
    cases isB <;> decide
  have hcodecStep : (if isC then
      readText ((if isC then serText codec else []) ++
        (int32beN md.length ++
        ((md.map fun p => serText p.1 ++ serText p.2).flatten ++ (sync ++ body))))
    else .ok ([], (if isC then serText codec else []) ++
        (int32beN md.length ++
        ((md.map fun p => serText p.1 ++ serText p.2).flatten ++ (sync ++ body))))) =
      .ok (codec, int32beN md.length ++
        ((md.map fun p => serText p.1 ++ serText p.2).flatten ++ (sync ++ body))) := by
    cases hC : isC
    · simp [hcodec hC]
    · rw [if_pos rfl, if_pos rfl]
      exact readText_ser codec _
  have hneg : ¬ ((md.length : Int) < 0) := by omega
  have htoNat : ((md.length : Nat) : Int).toNat = md.length := by omega
  rw [hser]
  simp only [readFileHeader, takeN_of_length 4 SEQFILE_VERSION_HEADER _ (by decide),
    readText_ser, ne_eq, eq_self_iff_true, not_true, if_false, hflag1, hflag2,
    hcodecStep]
  simp only [int32beN_cons, List.cons_append, List.nil_append,
    int32OfBytes_beN md.length hmeta, hneg, htoNat, readMetadataPairs_ser,
    takeN_of_length SYNC_HASH_SIZE sync body hsync, if_true, if_false]

end SeqScan

namespace SeqScan

theorem sizesSum_nil {α : Type} (sz : α → Nat) : sizesSum sz [] = 0 := rfl

theorem sizesSum_cons {α : Type} (sz : α → Nat) (a : α) (l : List α) :
    sizesSum sz (a :: l) = sz a + sizesSum sz l := by
  simp [sizesSum]

theorem sizesSum_append {α : Type} (sz : α → Nat) (l1 l2 : List α) :
    sizesSum sz (l1 ++ l2) = sizesSum sz l1 + sizesSum sz l2 := by
  simp [sizesSum]

theorem length_le_sizesSum {α : Type} (sz : α → Nat) (h : ∀ a, 1 ≤ sz a) :
    ∀ l : List α, l.length ≤ sizesSum sz l := by
  intro l
  induction l with
  | nil => simp [sizesSum]
  | cons a rest ih =>
    rw [sizesSum_cons]
    have := h a
    simp only [List.length_cons]
    omega

theorem syncPatternAt_oob (data hash : List Nat) (p : Nat)
    (h : data.length < p + 20) : syncPatternAt data hash p = false := by
  unfold syncPatternAt
  rw [decide_eq_false (by omega)]
  simp

theorem syncPatternAt_le (data hash : List Nat) (q : Nat)
    (h : syncPatternAt data hash q = true) : q + 20 ≤ data.length := by
  simp only [syncPatternAt, Bool.and_eq_true, decide_eq_true_eq] at h
  exact h.1.1

theorem findSyncPosF_none (data hash : List Nat) :
    ∀ (fuel p : Nat), data.length + 1 ≤ fuel + p →
      findSyncPosF data hash fuel p = none →
      ∀ j, p ≤ j → syncPatternAt data hash j = false := by
  intro fuel
  induction fuel with
  | zero =>
    intro p hp _ j hj
    exact syncPatternAt_oob _ _ _ (by omega)
  | succ f ih =>
    intro p hp hnone j hj
    rw [findSyncPosF] at hnone
    by_cases hoob : p + 20 > data.length
    · exact syncPatternAt_oob _ _ _ (by omega)
    · rw [if_neg hoob] at hnone
      by_cases hpat : syncPatternAt data hash p
      · rw [if_pos hpat] at hnone
        cases hnone
      · rw [if_neg hpat] at hnone
        rcases Nat.eq_or_lt_of_le hj with rfl | hlt
        · simpa using hpat
        · exact ih (p + 1) (by omega) hnone j (by omega)

theorem findSyncPosF_some (data hash : List Nat) :
    ∀ (fuel p q : Nat), findSyncPosF data hash fuel p = some q →
      p ≤ q ∧ syncPatternAt data hash q = true ∧
      ∀ j, p ≤ j → j < q → syncPatternAt data hash j = false := by
  intro fuel
  induction fuel with
  | zero =>
    intro p q h
    cases h
  | succ f ih =>
    intro p q h
    rw [findSyncPosF] at h
    by_cases hoob : p + 20 > data.length
    · rw [if_pos hoob] at h
      cases h
    · rw [if_neg hoob] at h
      by_cases hpat : syncPatternAt data hash p
      · rw [if_pos hpat] at h
        obtain rfl : p = q := by simpa using h
        exact ⟨le_refl _, by simpa using hpat,
          fun j h1 h2 => absurd (Nat.lt_of_le_of_lt h1 h2) (lt_irrefl _)⟩
      · rw [if_neg hpat] at h
        obtain ⟨h1, h2, h3⟩ := ih (p + 1) q h
        refine ⟨by omega, h2, fun j hj1 hj2 => ?_⟩
        rcases Nat.eq_or_lt_of_le hj1 with rfl | hlt
        · simpa using hpat
        · exact h3 j (by omega) hj2

theorem pattern_iff_positions (data hash : List Nat) (positions : List Nat)
    (huniq : (List.range data.length).filter (syncPatternAt data hash) = positions)
    (q : Nat) : syncPatternAt data hash q = true ↔ q ∈ positions := by
  rw [← huniq]
  simp only [List.mem_filter, List.mem_range]
  constructor
  · intro h
    exact ⟨by have := syncPatternAt_le data hash q h; omega, h⟩
  · intro h
    exact h.2

theorem gSyncPositions_lb {α : Type} (sz : α → Nat) (stp : α → Bool) :
    ∀ (l : List α) (base q : Nat), q ∈ gSyncPositions sz stp base l → base ≤ q := by
  intro l
  induction l with
  | nil =>
    intro base q h
    simp [gSyncPositions] at h
  | cons a rest ih =>
    intro base q h
    rw [gSyncPositions] at h
    by_cases hs : stp a
    · rw [if_pos hs] at h
      rcases List.mem_cons.mp h with rfl | h2
      · exact le_refl _
      · exact le_trans (Nat.le_add_right _ _) (ih _ _ h2)
    · rw [if_neg hs] at h
      exact le_trans (Nat.le_add_right _ _) (ih _ _ h)

theorem gdrop_empty_of_no_sync {α : Type} (sz : α → Nat) (stp : α → Bool) :
    ∀ (l : List α) (base N s : Nat),
    base + sizesSum sz l = N → s ≤ N →
    (∀ q ∈ gSyncPositions sz stp base l, q < s) →
    gdrop sz stp (N - s) l = [] := by
  intro l
  induction l with
  | nil => intro base N s _ _ _; rfl
  | cons a rest ih =>
    intro base N s hN hs hlt
    rw [sizesSum_cons] at hN
    by_cases hstp : stp a = true
    · have hbase : base < s :=
        hlt base (by rw [gSyncPositions, if_pos hstp]; exact List.mem_cons_self _ _)
      have hcond : ¬ (stp a = true ∧ sz a + sizesSum sz rest ≤ N - s) := by
        intro hp
        have := hp.2
        omega
      rw [gdrop, if_neg hcond]
      refine ih (base + sz a) N s (by omega) hs ?_
      intro q hq
      refine hlt q ?_
      rw [gSyncPositions, if_pos hstp]
      exact List.mem_cons_of_mem _ hq
    · rw [gdrop, if_neg (fun hp => hstp hp.1)]
      refine ih (base + sz a) N s (by omega) hs ?_
      intro q hq
      refine hlt q ?_
      rw [gSyncPositions, if_neg hstp]
      exact hq

theorem gdrop_decomp_of_min_sync {α : Type} (sz : α → Nat) (stp : α → Bool)
    (hsz : ∀ a, 0 < sz a) :
    ∀ (l : List α) (base N s p : Nat),
    base + sizesSum sz l = N → s ≤ N → s ≤ p →
    p ∈ gSyncPositions sz stp base l →
    (∀ q ∈ gSyncPositions sz stp base l, s ≤ q → p ≤ q) →
    ∃ pre post, l = pre ++ post ∧ gdrop sz stp (N - s) l = post ∧
      base + sizesSum sz pre = p := by
  intro l
  induction l with
  | nil =>
    intro base N s p _ _ _ hmem _
    simp [gSyncPositions] at hmem
  | cons a rest ih =>
    intro base N s p hN hs hsp hmem hmin
    rw [sizesSum_cons] at hN
    by_cases hstp : stp a = true
    · rw [gSyncPositions, if_pos hstp] at hmem hmin
      rcases List.mem_cons.mp hmem with rfl | hmem2
      · have hcond : stp a = true ∧ sz a + sizesSum sz rest ≤ N - s :=
          ⟨hstp, by omega⟩
        exact ⟨[], a :: rest, by simp, by rw [gdrop, if_pos hcond],
          by simp [sizesSum]⟩
      · have hlb := gSyncPositions_lb sz stp rest (base + sz a) p hmem2
        have hbase : base < s := by
          by_contra hc
          push_neg at hc
          have hple := hmin base (List.mem_cons_self _ _) hc
          have := hsz a
          omega
        have hcond : ¬ (stp a = true ∧ sz a + sizesSum sz rest ≤ N - s) := by
          intro hp
          have := hp.2
          omega
        rw [gdrop, if_neg hcond]
        obtain ⟨pre, post, heq, hdrop, hpos⟩ :=
          ih (base + sz a) N s p (by omega) hs hsp hmem2
            (fun q hq hsq => hmin q (List.mem_cons_of_mem _ hq) hsq)
        refine ⟨a :: pre, post, by rw [heq]; rfl, hdrop, ?_⟩
        rw [sizesSum_cons]
        omega
    · rw [gSyncPositions, if_neg hstp] at hmem hmin
      rw [gdrop, if_neg (fun hp => hstp hp.1)]
      obtain ⟨pre, post, heq, hdrop, hpos⟩ :=
        ih (base + sz a) N s p (by omega) hs hsp hmem hmin
      refine ⟨a :: pre, post, by rw [heq]; rfl, hdrop, ?_⟩
      rw [sizesSum_cons]
      omega

theorem validItems_suffix (pre post : List SeqItem)
    (h : ValidItems (pre ++ post)) : ValidItems post :=
  fun k v hm => h k v (List.mem_append_right _ hm)

end SeqScan

namespace SeqScan

theorem vintEncode_length_pos (n : Nat) : 0 < (vintEncode n).length := by
  rw [vintEncode, vintEncodeF]
  by_cases h : n < 128 <;> simp [h]

theorem vintListF_ser : ∀ (ls : List Nat) (fuel : Nat),
    ((ls.map vintEncode).flatten).length ≤ fuel →
    vintListF fuel (ls.map vintEncode).flatten = .ok ls := by
  intro ls
  induction ls with
  | nil =>
    intro fuel _
    cases fuel <;> rfl
  | cons n ns ih =>
    intro fuel hf
    simp only [List.map_cons, List.flatten_cons] at hf ⊢
    have hpos := vintEncode_length_pos n
    obtain ⟨f, rfl⟩ : ∃ f, fuel = f + 1 :=
      ⟨fuel - 1, by simp at hf; omega⟩
    have hstep : vintListF (f + 1) (vintEncode n ++ (ns.map vintEncode).flatten) =
        (match vintDecode (vintEncode n ++ (ns.map vintEncode).flatten) with
         | .error e => .error e
         | .ok (m, r) =>
           match vintListF f r with
           | .error e => .error e
           | .ok ms => .ok (m :: ms)) := by
      cases henc : vintEncode n with
      | nil => rw [henc] at hpos; simp at hpos
      | cons b bs => rfl
    rw [hstep, vintDecode_encode n]
    have hlen2 : (vintEncode n ++ (ns.map vintEncode).flatten).length =
        (vintEncode n).length + ((ns.map vintEncode).flatten).length :=
      List.length_append _ _
    have hih : vintListF f ((ns.map vintEncode).flatten) = .ok ns :=
      ih f (by omega)
    show (match vintListF f ((ns.map vintEncode).flatten) with
      | .error e => (.error e : Except Err (List Nat))
      | .ok ms => .ok (n :: ms)) = .ok (n :: ns)
    rw [hih]

theorem sliceBy_flatten : ∀ ls : List (List Nat),
    sliceBy (ls.map List.length) ls.flatten = ls := by
  intro ls
  induction ls with
  | nil => rfl
  | cons a rest ih =>
    simp only [List.map_cons, List.flatten_cons, sliceBy]
    rw [List.take_left, List.drop_left, ih]

theorem checkSync_ser (hash : List Nat) (hsync : hash.length = SYNC_HASH_SIZE)
    (r : List Nat) :
    checkSync hash (sentinelBytes ++ hash ++ r) = .ok (true, r) := by
  have h : sentinelBytes ++ hash ++ r = 255 :: 255 :: 255 :: 255 :: (hash ++ r) := by
    simp [sentinelBytes]
  rw [h]
  simp [checkSync, int32OfBytes_sentinel, takeN_of_length SYNC_HASH_SIZE hash r hsync]

theorem readCompressedBlock_ser (comp decomp : List Nat → List Nat)
    (hcd : ∀ l, decomp (comp l) = l) (hash : List Nat)
    (hsync : hash.length = SYNC_HASH_SIZE) (B : SeqBlock) (rest : List Nat) :
    readCompressedBlock decomp hash (serBlock comp hash B ++ rest) =
      if B.keys.length = B.values.length then .ok (B.keys.zip B.values, rest)
      else .error .countMismatch := by
  obtain ⟨ks, vs⟩ := B
  have hser : serBlock comp hash ⟨ks, vs⟩ ++ rest =
      sentinelBytes ++ hash ++
      (serText (comp (ks.map fun k => vintEncode k.length).flatten) ++
      (serText (comp ks.flatten) ++
      (serText (comp (vs.map fun v => vintEncode v.length).flatten) ++
      (serText (comp vs.flatten) ++ rest)))) := by
    simp [serBlock, List.append_assoc]
  rw [hser]
  simp only [readCompressedBlock, checkSync_ser hash hsync, readText_ser, hcd]
  have hklens : (ks.map fun k => vintEncode k.length).flatten =
      ((ks.map List.length).map vintEncode).flatten := by
    rw [List.map_map]
    rfl
  have hvlens : (vs.map fun v => vintEncode v.length).flatten =
      ((vs.map List.length).map vintEncode).flatten := by
    rw [List.map_map]
    rfl
  rw [hklens, hvlens,
    vintListF_ser (ks.map List.length) _ (le_refl _),
    vintListF_ser (vs.map List.length) _ (le_refl _)]
  simp only [List.length_map]
  by_cases hcount : ks.length = vs.length
  · rw [if_neg (by omega), if_pos hcount]
    have h1 : sliceBy (ks.map List.length) ks.flatten = ks := sliceBy_flatten ks
    have h2 : sliceBy (vs.map List.length) vs.flatten = vs := sliceBy_flatten vs
    simp [h1, h2]
  · rw [if_pos (by omega), if_neg hcount]

theorem serBlocks_nil (comp : List Nat → List Nat) (hash : List Nat) :
    serBlocks comp hash [] = [] := rfl

theorem serBlocks_cons (comp : List Nat → List Nat) (hash : List Nat)
    (B : SeqBlock) (bs : List SeqBlock) :
    serBlocks comp hash (B :: bs) = serBlock comp hash B ++ serBlocks comp hash bs := by
  simp [serBlocks]

theorem serBlocks_append (comp : List Nat → List Nat) (hash : List Nat)
    (l1 l2 : List SeqBlock) :
    serBlocks comp hash (l1 ++ l2) = serBlocks comp hash l1 ++ serBlocks comp hash l2 := by
  simp [serBlocks]

theorem serBlocks_length (comp : List Nat → List Nat) (hash : List Nat) :
    ∀ bs : List SeqBlock, (serBlocks comp hash bs).length =
      sizesSum (fun B => (serBlock comp hash B).length) bs := by
  intro bs
  induction bs with
  | nil => rfl
  | cons B rest ih =>
    rw [serBlocks_cons]
    simp only [List.length_append, ih, sizesSum_cons]

theorem serBlock_cons_form (comp : List Nat → List Nat) (hash : List Nat)
    (B : SeqBlock) (r : List Nat) :
    serBlock comp hash B ++ r = 255 :: (255 :: 255 :: 255 :: (hash ++
      (serText (comp (B.keys.map fun k => vintEncode k.length).flatten) ++
      (serText (comp B.keys.flatten) ++
      (serText (comp (B.values.map fun v => vintEncode v.length).flatten) ++
      (serText (comp B.values.flatten) ++ r)))))) := by
  simp [serBlock, sentinelBytes, List.append_assoc]

theorem scanBlocks_serialized (comp decomp : List Nat → List Nat)
    (hcd : ∀ l, decomp (comp l) = l) (hash : List Nat)
    (hsync : hash.length = SYNC_HASH_SIZE) (R : Nat) :
    ∀ (bs : List SeqBlock) (fuel : Nat), bs.length ≤ fuel →
      (∀ B ∈ bs, B.keys.length = B.values.length) →
      scanBlocksF decomp hash R fuel (serBlocks comp hash bs) =
        .ok (gcut (fun B => (serBlock comp hash B).length) (fun _ => true)
          blockOut R bs) := by
  intro bs
  induction bs with
  | nil =>
    intro fuel _ _
    cases fuel <;> rfl
  | cons B rest ih =>
    intro fuel hfuel hcounts
    obtain ⟨f, rfl⟩ : ∃ f, fuel = f + 1 :=
      ⟨fuel - 1, by simp at hfuel; omega⟩
    rw [serBlocks_cons]
    have hlen : (serBlock comp hash B ++ serBlocks comp hash rest).length =
        (serBlock comp hash B).length +
          sizesSum (fun B => (serBlock comp hash B).length) rest := by
      simp [serBlocks_length comp hash rest]
    have hstep : scanBlocksF decomp hash R (f + 1)
        (serBlock comp hash B ++ serBlocks comp hash rest) =
        (if (serBlock comp hash B ++ serBlocks comp hash rest).length ≤ R then
          .ok []
        else
          match readCompressedBlock decomp hash
              (serBlock comp hash B ++ serBlocks comp hash rest) with
          | .error e => .error e
          | .ok (rs, rest2) =>
            match scanBlocksF decomp hash R f rest2 with
            | .error e => .error e
            | .ok rs2 => .ok (rs ++ rs2)) := by
      rw [serBlock_cons_form]
      rfl
    rw [hstep]
    by_cases hstop : (serBlock comp hash B).length +
        sizesSum (fun B => (serBlock comp hash B).length) rest ≤ R
    · rw [if_pos (by omega), gcut, if_pos ⟨rfl, hstop⟩]
    · rw [if_neg (by omega)]
      rw [readCompressedBlock_ser comp decomp hcd hash hsync B]
      rw [if_pos (hcounts B (List.mem_cons_self _ _))]
      have hih := ih f (by simp at hfuel; omega)
        (fun B2 hm => hcounts B2 (List.mem_cons_of_mem _ hm))
      show (match scanBlocksF decomp hash R f (serBlocks comp hash rest) with
        | Except.error e => Except.error e
        | Except.ok rs2 => Except.ok (B.keys.zip B.values ++ rs2)) = _
      rw [hih, gcut, if_neg (fun hp => hstop hp.2)]
      rfl

end SeqScan

namespace SeqScan

theorem itemSize_pos (it : SeqItem) : 0 < itemSize it := by
  cases it <;> simp [itemSize]

theorem serBlock_length_pos (comp : List Nat → List Nat) (hash : List Nat)
    (B : SeqBlock) : 0 < (serBlock comp hash B).length := by
  simp [serBlock, sentinelBytes]

theorem validRec_sizes (data : List Nat) (H : SeqHeader) (its : List SeqItem)
    (V : ValidRecFile data H its) :
    (serializeHeader H).length + sizesSum itemSize its = data.length := by
  rw [V.hdata]
  simp [serItems_length H.sync V.hsync]

theorem scanRange_recFile (decomp : List Nat → List Nat) (data : List Nat)
    (H : SeqHeader) (its : List SeqItem) (V : ValidRecFile data H its)
    (s e : Nat) (hsN : s ≤ data.length) :
    scanRange decomp data s e =
      .ok (gcut itemSize SeqItem.isSync
        (recOut (if H.isCompressed then decomp else id)) (data.length - e)
        (if s = 0 then its
         else gdrop itemSize SeqItem.isSync (data.length - s) its)) := by
  have hsync := V.hsync
  have hparse : readFileHeader data = .ok (H, serItems H.sync its) := by
    rw [V.hdata]
    exact readFileHeader_ser H _ hsync V.hcodec V.hmeta
  have hfuelLen : ∀ l : List SeqItem, l.length ≤ (serItems H.sync l).length := by
    intro l
    rw [serItems_length H.sync hsync]
    exact length_le_sizesSum itemSize (fun a => itemSize_pos a) l
  by_cases hs0 : s = 0
  · subst hs0
    simp only [scanRange, hparse, if_pos rfl, V.hblk, Bool.false_eq_true,
      if_false, if_true]
    exact scanRecords_serialized H.sync hsync (data.length - e) _
      (serItems H.sync its).length its (serItems H.sync its).length
      (hfuelLen its) V.hitems (hfuelLen its)
  · simp only [scanRange, hparse, if_neg hs0]
    have hbaseN := validRec_sizes data H its V
    have hmem := pattern_iff_positions data H.sync _ V.huniq
    cases hfind : findFirstRecord data H.sync s with
    | none =>
      have hnopat := findSyncPosF_none data H.sync (data.length + 1) s
        (by omega) hfind
      have hdrop : gdrop itemSize SeqItem.isSync (data.length - s) its = [] := by
        refine gdrop_empty_of_no_sync itemSize SeqItem.isSync its
          (serializeHeader H).length data.length s hbaseN hsN ?_
        intro q hq
        by_contra hc
        push_neg at hc
        have := hnopat q hc
        rw [(hmem q).mpr hq] at this
        cases this
      rw [hdrop]
      rfl
    | some p =>
      obtain ⟨hsp, hpat, hminpat⟩ :=
        findSyncPosF_some data H.sync (data.length + 1) s p hfind
      have hpmem : p ∈ gSyncPositions itemSize SeqItem.isSync
          (serializeHeader H).length its := (hmem p).mp hpat
      have hmin : ∀ q ∈ gSyncPositions itemSize SeqItem.isSync
          (serializeHeader H).length its, s ≤ q → p ≤ q := by
        intro q hq hsq
        by_contra hc
        push_neg at hc
        have := hminpat q hsq hc
        rw [(hmem q).mpr hq] at this
        cases this
      obtain ⟨pre, post, heq, hdrop, hpos⟩ :=
        gdrop_decomp_of_min_sync itemSize SeqItem.isSync itemSize_pos its
          (serializeHeader H).length data.length s p hbaseN hsN hsp hpmem hmin
      have hbytes : data.drop p = serItems H.sync post := by
        have hd : data = (serializeHeader H ++ serItems H.sync pre) ++
            serItems H.sync post := by
          rw [V.hdata, heq, serItems_append]
          simp [List.append_assoc]
        have hplen : p = (serializeHeader H ++ serItems H.sync pre).length := by
          simp only [List.length_append, serItems_length H.sync hsync]
          omega
        rw [hd, hplen, List.drop_left]
      have hvpost : ValidItems post := by
        refine validItems_suffix pre post ?_
        rw [← heq]
        exact V.hitems
      rw [hdrop]
      simp only [V.hblk, Bool.false_eq_true, if_false]
      show scanRecordsF H.sync (data.length - e)
          (if H.isCompressed = true then decomp else id)
          (List.drop p data).length (List.drop p data) =
        Except.ok (gcut itemSize SeqItem.isSync
          (recOut (if H.isCompressed = true then decomp else id))
          (data.length - e) post)
      rw [hbytes]
      exact scanRecords_serialized H.sync hsync (data.length - e) _
        (serItems H.sync post).length post (serItems H.sync post).length
        (hfuelLen post) hvpost (hfuelLen post)

end SeqScan

namespace SeqScan

theorem validBlk_sizes (comp : List Nat → List Nat) (data : List Nat)
    (H : SeqHeader) (bs : List SeqBlock) (V : ValidBlkFile comp data H bs) :
    (serializeHeader H).length +
      sizesSum (fun B => (serBlock comp H.sync B).length) bs = data.length := by
  rw [V.hdata]
  simp [serBlocks_length comp H.sync bs]

theorem scanRange_blkFile (comp decomp : List Nat → List Nat)
    (hcd : ∀ l, decomp (comp l) = l) (data : List Nat) (H : SeqHeader)
    (bs : List SeqBlock) (V : ValidBlkFile comp data H bs) (s e : Nat)
    (hsN : s ≤ data.length) :
    scanRange decomp data s e =
      .ok (gcut (fun B => (serBlock comp H.sync B).length) (fun _ => true)
        blockOut (data.length - e)
        (if s = 0 then bs
         else gdrop (fun B => (serBlock comp H.sync B).length) (fun _ => true)
           (data.length - s) bs)) := by
  have hsync := V.hsync
  have hparse : readFileHeader data = .ok (H, serBlocks comp H.sync bs) := by
    rw [V.hdata]
    exact readFileHeader_ser H _ hsync V.hcodec V.hmeta
  have hfuelLen : ∀ l : List SeqBlock, l.length ≤ (serBlocks comp H.sync l).length := by
    intro l
    rw [serBlocks_length comp H.sync l]
    exact length_le_sizesSum _ (fun a => serBlock_length_pos comp H.sync a) l
  by_cases hs0 : s = 0
  · subst hs0
    simp only [scanRange, hparse, if_pos rfl, V.hblk, if_true]
    exact scanBlocks_serialized comp decomp hcd H.sync hsync (data.length - e)
      bs (serBlocks comp H.sync bs).length (hfuelLen bs) V.hcounts
  · simp only [scanRange, hparse, if_neg hs0]
    have hbaseN := validBlk_sizes comp data H bs V
    have hmem := pattern_iff_positions data H.sync _ V.huniq
    cases hfind : findFirstRecord data H.sync s with
    | none =>
      have hnopat := findSyncPosF_none data H.sync (data.length + 1) s
        (by omega) hfind
      have hdrop : gdrop (fun B => (serBlock comp H.sync B).length)
          (fun _ => true) (data.length - s) bs = [] := by
        refine gdrop_empty_of_no_sync _ _ bs
          (serializeHeader H).length data.length s hbaseN hsN ?_
        intro q hq
        by_contra hc
        push_neg at hc
        have := hnopat q hc
        rw [(hmem q).mpr hq] at this
        cases this
      rw [hdrop]
      rfl
    | some p =>
      obtain ⟨hsp, hpat, hminpat⟩ :=
        findSyncPosF_some data H.sync (data.length + 1) s p hfind
      have hpmem : p ∈ gSyncPositions (fun B => (serBlock comp H.sync B).length)
          (fun _ => true) (serializeHeader H).length bs := (hmem p).mp hpat
      have hmin : ∀ q ∈ gSyncPositions (fun B => (serBlock comp H.sync B).length)
          (fun _ => true) (serializeHeader H).length bs, s ≤ q → p ≤ q := by
        intro q hq hsq
        by_contra hc
        push_neg at hc
        have := hminpat q hsq hc
        rw [(hmem q).mpr hq] at this
        cases this
      obtain ⟨pre, post, heq, hdrop, hpos⟩ :=
        gdrop_decomp_of_min_sync _ _
          (fun a => serBlock_length_pos comp H.sync a) bs
          (serializeHeader H).length data.length s p hbaseN hsN hsp hpmem hmin
      have hbytes : data.drop p = serBlocks comp H.sync post := by
        have hd : data = (serializeHeader H ++ serBlocks comp H.sync pre) ++
            serBlocks comp H.sync post := by
          rw [V.hdata, heq, serBlocks_append]
          simp [List.append_assoc]
        have hplen : p = (serializeHeader H ++ serBlocks comp H.sync pre).length := by
          simp only [List.length_append, serBlocks_length comp H.sync]
          omega
        rw [hd, hplen, List.drop_left]
      have hcpost : ∀ B ∈ post, B.keys.length = B.values.length := by
        intro B hm
        refine V.hcounts B ?_
        rw [heq]
        exact List.mem_append_right _ hm
      rw [hdrop]
      simp only [V.hblk, if_true]
      show scanBlocksF decomp H.sync (data.length - e)
          (List.drop p data).length (List.drop p data) =
        Except.ok (gcut (fun B => (serBlock comp H.sync B).length)
          (fun _ => true) blockOut (data.length - e) post)
      rw [hbytes]
      exact scanBlocks_serialized comp decomp hcd H.sync hsync (data.length - e)
        post (serBlocks comp H.sync post).length (hfuelLen post) hcpost

end SeqScan

namespace SeqScan

theorem chain_lt_last : ∀ (l : List Nat) (x N : Nat),
    List.Chain' (· < ·) (x :: l ++ [N]) → x < N := by
  intro l
  induction l with
  | nil =>
    intro x N h
    exact (List.chain'_cons.mp h).1
  | cons y l ih =>
    intro x N h
    exact lt_trans (List.chain'_cons.mp h).1 (ih y N (List.chain'_cons.mp h).2)

theorem multiScan_eq_scanRange (comp decomp : List Nat → List Nat)
    (hcd : ∀ l, decomp (comp l) = l) (data : List Nat)
    (hvalid : ValidSeqFile comp data) :
    ∀ (es : List Nat) (s : Nat),
      List.Chain' (· < ·) (s :: es ++ [data.length]) →
      multiScanOut decomp data s es = scanRange decomp data s data.length := by
  intro es
  induction es with
  | nil => intro s _; rfl
  | cons e es ih =>
    intro s hchain
    have hse : s < e := (List.chain'_cons.mp hchain).1
    have hchain2 : List.Chain' (· < ·) (e :: es ++ [data.length]) :=
      (List.chain'_cons.mp hchain).2
    have heN : e < data.length := chain_lt_last es e data.length hchain2
    have hsN : s < data.length := chain_lt_last (e :: es) s data.length hchain
    have he0 : ¬ (e = 0) := by omega
    rw [multiScanOut, ih e hchain2]
    rcases hvalid with ⟨H, its, V⟩ | ⟨H, bs, V⟩
    · have h1 := scanRange_recFile decomp data H its V s e (le_of_lt hsN)
      have h2 := scanRange_recFile decomp data H its V e data.length
        (le_of_lt heN)
      have h3 := scanRange_recFile decomp data H its V s data.length
        (le_of_lt hsN)
      simp only [h1, h2, h3, if_neg he0]
      refine congrArg Except.ok ?_
      have hle : data.length - e ≤ data.length - s :=
        Nat.sub_le_sub_left (le_of_lt hse) data.length
      by_cases hs0 : s = 0
      · simp only [if_pos hs0]
        exact gcut_gdrop_telescope itemSize SeqItem.isSync _ (data.length - e)
          (data.length - data.length) (by omega) its
      · simp only [if_neg hs0]
        rw [← gdrop_gdrop itemSize SeqItem.isSync (data.length - s)
          (data.length - e) hle its]
        exact gcut_gdrop_telescope itemSize SeqItem.isSync _ (data.length - e)
          (data.length - data.length) (by omega)
          (gdrop itemSize SeqItem.isSync (data.length - s) its)
    · have h1 := scanRange_blkFile comp decomp hcd data H bs V s e (le_of_lt hsN)
      have h2 := scanRange_blkFile comp decomp hcd data H bs V e data.length
        (le_of_lt heN)
      have h3 := scanRange_blkFile comp decomp hcd data H bs V s data.length
        (le_of_lt hsN)
      simp only [h1, h2, h3, if_neg he0]
      refine congrArg Except.ok ?_
      have hle : data.length - e ≤ data.length - s :=
        Nat.sub_le_sub_left (le_of_lt hse) data.length
      by_cases hs0 : s = 0
      · simp only [if_pos hs0]
        exact gcut_gdrop_telescope _ _ _ (data.length - e)
          (data.length - data.length) (by omega) bs
      · simp only [if_neg hs0]
        rw [← gdrop_gdrop (fun B => (serBlock comp H.sync B).length)
          (fun _ => true) (data.length - s) (data.length - e) hle bs]
        exact gcut_gdrop_telescope _ _ _ (data.length - e)
          (data.length - data.length) (by omega)
          (gdrop (fun B => (serBlock comp H.sync B).length) (fun _ => true)
            (data.length - s) bs)

end SeqScan

namespace SeqScan

/-- C1: for every valid sequence file — either record encoding, written with
a compressor `comp` that the scanner's decompressor `decomp` inverts — and
every N-way split of it into contiguous, non-overlapping scan ranges
covering `[0, file_length)` (split points `0 :: es ++ [data.length]`,
strictly increasing), the concatenation in range order of the records
decoded by the N scanners run independently (each re-reading the header
itself and, when not starting at the file start, running `FindFirstRecord`
from its own start offset) equals exactly the records decoded by a single
scanner over the whole file.  Equality of the ordered lists is stronger than
the claimed multiset equality: no record is duplicated and none omitted. -/
theorem nway_split_exact_partition (comp decomp : List Nat → List Nat)
    (data : List Nat) (hcd : ∀ l, decomp (comp l) = l)
    (hvalid : ValidSeqFile comp data) (es : List Nat)
    (hchain : List.Chain' (· < ·) (0 :: es ++ [data.length])) :
    multiScanOut decomp data 0 es = scanRange decomp data 0 data.length :=
  multiScan_eq_scanRange comp decomp hcd data hvalid es 0 hchain

set_option maxRecDepth 20000 in
/-- Witness for C1: a concrete uncompressed file with two sync-led record
blocks, split in two at byte offset 100; the hypotheses are discharged at
this file and the two-scanner output equals the single-scanner output. -/
theorem nway_split_exact_partition_witness :
    ValidSeqFile id
      (serializeHeader ⟨false, false, [], [], List.range 16⟩ ++
        serItems (List.range 16)
          [SeqItem.sync, SeqItem.record [1, 2, 3, 4] [65],
           SeqItem.sync, SeqItem.record [9, 9, 9, 9] [66]]) ∧
    multiScanOut id
      (serializeHeader ⟨false, false, [], [], List.range 16⟩ ++
        serItems (List.range 16)
          [SeqItem.sync, SeqItem.record [1, 2, 3, 4] [65],
           SeqItem.sync, SeqItem.record [9, 9, 9, 9] [66]]) 0 [100] =
    scanRange id
      (serializeHeader ⟨false, false, [], [], List.range 16⟩ ++
        serItems (List.range 16)
          [SeqItem.sync, SeqItem.record [1, 2, 3, 4] [65],
           SeqItem.sync, SeqItem.record [9, 9, 9, 9] [66]]) 0
      (serializeHeader ⟨false, false, [], [], List.range 16⟩ ++
        serItems (List.range 16)
          [SeqItem.sync, SeqItem.record [1, 2, 3, 4] [65],
           SeqItem.sync, SeqItem.record [9, 9, 9, 9] [66]]).length := by
  have hvalid : ValidSeqFile id
      (serializeHeader ⟨false, false, [], [], List.range 16⟩ ++
        serItems (List.range 16)
          [SeqItem.sync, SeqItem.record [1, 2, 3, 4] [65],
           SeqItem.sync, SeqItem.record [9, 9, 9, 9] [66]]) := by
    refine Or.inl ⟨⟨false, false, [], [], List.range 16⟩,
      [SeqItem.sync, SeqItem.record [1, 2, 3, 4] [65],
       SeqItem.sync, SeqItem.record [9, 9, 9, 9] [66]], ?_, ?_, ?_, ?_, ?_, ?_, ?_⟩
    · rfl
    · rfl
    · rfl
    · intro _
      rfl
    · decide
    · intro k v hm
      simp only [List.mem_cons, List.not_mem_nil, or_false] at hm
      rcases hm with h | h | h | h
      · cases h
      · cases h
        constructor <;> decide
      · cases h
      · cases h
        constructor <;> decide
    · decide
  refine ⟨hvalid, ?_⟩
  refine nway_split_exact_partition id id _ (fun l => rfl) hvalid [100] ?_
  refine List.chain'_cons.mpr ⟨by decide, ?_⟩
  refine List.chain'_cons.mpr ⟨by decide, List.chain'_singleton _⟩

/-- C2: for every scan range whose start offset is not the file start, if no
sentinel-plus-header-sync pattern match exists at any position from the
start offset up to (excluding) the end offset — which covers the case of a
corrupted embedded sync, past which the search simply continues — then the
range decodes zero records and terminates as a normal end of range
(`.ok []`), not by raising an error. -/
theorem no_sync_match_zero_records (decomp : List Nat → List Nat)
    (data : List Nat) (H : SeqHeader) (afterHeader : List Nat)
    (hparse : readFileHeader data = .ok (H, afterHeader))
    (s e : Nat) (hs0 : s ≠ 0) (heN : e ≤ data.length)
    (hnomatch : ∀ p, p < e → s ≤ p → syncPatternAt data H.sync p = false) :
    scanRange decomp data s e = .ok [] := by
  simp only [scanRange, hparse, if_neg hs0]
  cases hfind : findFirstRecord data H.sync s with
  | none => rfl
  | some p =>
    obtain ⟨hsp, hpat, _⟩ :=
      findSyncPosF_some data H.sync (data.length + 1) s p hfind
    have hpe : e ≤ p := by
      by_contra hc
      push_neg at hc
      have := hnomatch p hc hsp
      rw [hpat] at this
      cases this
    have hlen20 := syncPatternAt_le data H.sync p hpat
    have hsen : (data.drop p).take 4 = sentinelBytes := by
      simp only [syncPatternAt, Bool.and_eq_true, decide_eq_true_eq] at hpat
      exact hpat.1.2
    have hdroplen : (data.drop p).length = data.length - p := List.length_drop _ _
    have hdropstruct : data.drop p =
        255 :: 255 :: 255 :: 255 :: data.drop (4 + p) := by
      conv_lhs => rw [← List.take_append_drop 4 (data.drop p)]
      rw [hsen, List.drop_drop]
      simp [sentinelBytes, Nat.add_comm]
    by_cases hblk : H.isBlkCompressed = true
    · simp only [hblk, if_true]
      obtain ⟨f, hf⟩ : ∃ f, (data.drop p).length = f + 1 :=
        ⟨(data.drop p).length - 1, by omega⟩
      rw [hf]
      rw [hdropstruct]
      show (if (255 :: 255 :: 255 :: 255 :: data.drop (4 + p)).length ≤
          data.length - e then (Except.ok [] : Except Err (List Rec))
        else
          match readCompressedBlock decomp H.sync
              (255 :: 255 :: 255 :: 255 :: data.drop (4 + p)) with
          | .error err => .error err
          | .ok (rs, rest) =>
            match scanBlocksF decomp H.sync (data.length - e) f rest with
            | .error err => .error err
            | .ok rs2 => .ok (rs ++ rs2)) = .ok []
      rw [if_pos ?hc]
      case hc =>
        simp only [List.length_cons, List.length_drop]
        omega
    · simp only [if_neg hblk]
      obtain ⟨f, hf⟩ : ∃ f, (data.drop p).length = f + 1 :=
        ⟨(data.drop p).length - 1, by omega⟩
      rw [hf, scanRecordsF, hdropstruct]
      have hstep : getRecordF H.sync (data.length - e)
          (if H.isCompressed = true then decomp else id) (f + 1)
          (255 :: 255 :: 255 :: 255 :: data.drop (4 + p)) = .ok .eosr := by
        have hform : getRecordF H.sync (data.length - e)
            (if H.isCompressed = true then decomp else id) (f + 1)
            (255 :: 255 :: 255 :: 255 :: data.drop (4 + p)) =
            (if (data.drop (4 + p)).length + 4 ≤ data.length - e then
              .ok .eosr
            else
              match takeN SYNC_HASH_SIZE (data.drop (4 + p)) with
              | none => .error .formatError
              | some (h, r) =>
                if h = H.sync then getRecordF H.sync (data.length - e)
                  (if H.isCompressed = true then decomp else id) f r
                else .error .syncMismatch) := by
          simp [getRecordF, int32OfBytes_sentinel]
        rw [hform, if_pos ?hc2]
        case hc2 =>
          simp only [List.length_drop]
          omega
      rw [hstep]

end SeqScan

namespace SeqScan

set_option maxRecDepth 20000 in
/-- Witness for C2: a file whose only embedded sync after the header has one
hash byte flipped (99 in place of 14); a scan range starting just past the
file start finds no valid sync match before its end offset, decodes zero
records, and ends without an error. -/
theorem no_sync_match_zero_records_witness :
    scanRange id
      (serializeHeader ⟨false, false, [], [], List.range 16⟩ ++
        (sentinelBytes ++ [0, 1, 2, 3, 4, 5, 6, 7, 8, 9, 10, 11, 12, 13, 99, 15]))
      88
      (serializeHeader ⟨false, false, [], [], List.range 16⟩ ++
        (sentinelBytes ++
          [0, 1, 2, 3, 4, 5, 6, 7, 8, 9, 10, 11, 12, 13, 99, 15])).length =
      .ok [] := by
  refine no_sync_match_zero_records id _ ⟨false, false, [], [], List.range 16⟩
    (sentinelBytes ++ [0, 1, 2, 3, 4, 5, 6, 7, 8, 9, 10, 11, 12, 13, 99, 15])
    (by rfl) 88 _ (by decide) (le_refl _) (by decide)

/-- C3 (amended): on the uncompressed / record-compressed path, `GetRecord`
signals end of scan range exactly when it meets a sync marker whose position
is at or past the range's end offset (`stepItems` returns `.eosr` exactly
then), not whenever the read position has advanced past the end offset; a
record whose decoding straddles the end offset is still fully decoded and
returned by the step that started it (`stepItems` returns the record's
complete key and value). -/
theorem getRecord_eosr_at_sync (hash : List Nat)
    (hsync : hash.length = SYNC_HASH_SIZE) (R : Nat) (dv : List Nat → List Nat)
    (its : List SeqItem) (fuel : Nat) (hv : ValidItems its)
    (hfuel : its.length ≤ fuel) :
    getRecordF hash R dv fuel (serItems hash its) =
      .ok (stepItems hash dv R its) :=
  getRecord_serialized hash hsync R dv its fuel hv hfuel

/-- Witness for C3's amended theorem: one sync below the end offset followed
by a record that ends past the end offset; the step consumes the sync and
returns the record in full rather than signalling end of scan range. -/
theorem getRecord_eosr_at_sync_witness :
    getRecordF (List.range 16) 10 id 2
      (serItems (List.range 16)
        [SeqItem.sync, SeqItem.record [1, 2, 3, 4] [65, 66]]) =
      .ok (stepItems (List.range 16) id 10
        [SeqItem.sync, SeqItem.record [1, 2, 3, 4] [65, 66]]) := by
  refine getRecord_eosr_at_sync (List.range 16) (by decide) 10 id _ 2 ?_
    (by decide)
  intro k v hm
  simp only [List.mem_cons, List.not_mem_nil, or_false] at hm
  rcases hm with h | h
  · cases h
  · cases h
    constructor <;> decide

theorem takeN_some (n : Nat) (l a r : List Nat) (h : takeN n l = some (a, r)) :
    a = l.take n ∧ r = l.drop n ∧ n ≤ l.length := by
  simp only [takeN] at h
  split at h
  · obtain ⟨h1, h2⟩ := by simpa using h
    exact ⟨h1.symm, h2.symm, by assumption⟩
  · cases h

/-- C5: `ReadFileHeader` succeeds only on files whose first 4 bytes equal
the magic `{'S','E','Q',6}` and whose key-class and value-class strings
equal `org.apache.hadoop.io.BytesWritable` and `org.apache.hadoop.io.Text`;
a mismatch in the magic or in either class name yields the fatal
`FormatError` (the whole parse aborts with the error; there is no
partial-header recovery). -/
theorem readFileHeader_validates :
    (∀ (l : List Nat) (H : SeqHeader) (r : List Nat),
      readFileHeader l = .ok (H, r) →
      l.take 4 = SEQFILE_VERSION_HEADER ∧
      ∃ r1 r2, readText (l.drop 4) = .ok (SEQFILE_KEY_CLASS_NAME, r1) ∧
        readText r1 = .ok (SEQFILE_VALUE_CLASS_NAME, r2)) ∧
    (∀ l : List Nat, 4 ≤ l.length → l.take 4 ≠ SEQFILE_VERSION_HEADER →
      readFileHeader l = .error .formatError) ∧
    (∀ (l kc r1 : List Nat), l.take 4 = SEQFILE_VERSION_HEADER →
      readText (l.drop 4) = .ok (kc, r1) → kc ≠ SEQFILE_KEY_CLASS_NAME →
      readFileHeader l = .error .formatError) ∧
    (∀ (l r1 vc r2 : List Nat), l.take 4 = SEQFILE_VERSION_HEADER →
      readText (l.drop 4) = .ok (SEQFILE_KEY_CLASS_NAME, r1) →
      readText r1 = .ok (vc, r2) → vc ≠ SEQFILE_VALUE_CLASS_NAME →
      readFileHeader l = .error .formatError) := by
  have hmagiclen : ∀ l : List Nat, l.take 4 = SEQFILE_VERSION_HEADER →
      4 ≤ l.length := by
    intro l h
    have := congrArg List.length h
    simp only [List.length_take, SEQFILE_VERSION_HEADER] at this
    simp at this
    omega
  have htkmagic : ∀ l : List Nat, l.take 4 = SEQFILE_VERSION_HEADER →
      takeN 4 l = some (SEQFILE_VERSION_HEADER, l.drop 4) := by
    intro l h
    have hlen := hmagiclen l h
    simp [takeN, hlen, h]
  refine ⟨?_, ?_, ?_, ?_⟩
  · intro l H r h
    unfold readFileHeader at h
    split at h
    · simp at h
    · next magic r0 heq =>
      obtain ⟨hm, hr0, _⟩ := takeN_some 4 l magic r0 heq
      split at h
      · simp at h
      · next hmag =>
        push_neg at hmag
        subst hm hr0
        split at h
        · simp at h
        · next kc r1 heq2 =>
          split at h
          · simp at h
          · next hkc =>
            push_neg at hkc
            subst hkc
            split at h
            · simp at h
            · next vc r2 heq3 =>
              split at h
              · simp at h
              · next hvc =>
                push_neg at hvc
                subst hvc
                exact ⟨hmag ▸ rfl, r1, r2, heq2, heq3⟩
  · intro l hlen hne
    have htk : takeN 4 l = some (l.take 4, l.drop 4) := by
      simp [takeN, hlen]
    simp only [readFileHeader, htk]
    rw [if_pos hne]
  · intro l kc r1 hmag hrt hne
    simp only [readFileHeader, htkmagic l hmag]
    rw [if_neg (by simp), hrt]
    show (if kc ≠ SEQFILE_KEY_CLASS_NAME then Except.error Err.formatError
      else _) = _
    rw [if_pos hne]
  · intro l r1 vc r2 hmag hrt1 hrt2 hne
    simp only [readFileHeader, htkmagic l hmag]
    rw [if_neg (by simp), hrt1]
    show (if SEQFILE_KEY_CLASS_NAME ≠ SEQFILE_KEY_CLASS_NAME then
        Except.error Err.formatError
      else
        match readText r1 with
        | .error e => .error e
        | .ok (vc, r2) =>
          if vc ≠ SEQFILE_VALUE_CLASS_NAME then Except.error Err.formatError
          else _) = _
    rw [if_neg (by simp), hrt2]
    show (if vc ≠ SEQFILE_VALUE_CLASS_NAME then Except.error Err.formatError
      else _) = _
    rw [if_pos hne]

set_option maxRecDepth 20000 in
/-- Witness for C5: a concrete serialized header parses and exhibits the
magic and both class-name fields; a 5-byte stream with a wrong magic fails
with `FormatError`. -/
theorem readFileHeader_validates_witness :
    ((serializeHeader ⟨false, false, [], [], List.range 16⟩).take 4 =
        SEQFILE_VERSION_HEADER ∧
      ∃ r1 r2, readText ((serializeHeader
          ⟨false, false, [], [], List.range 16⟩).drop 4) =
          .ok (SEQFILE_KEY_CLASS_NAME, r1) ∧
        readText r1 = .ok (SEQFILE_VALUE_CLASS_NAME, r2)) ∧
    readFileHeader [0, 0, 0, 0, 0] = .error .formatError :=
  ⟨readFileHeader_validates.1 (serializeHeader ⟨false, false, [], [], List.range 16⟩)
      ⟨false, false, [], [], List.range 16⟩ [] (by rfl),
   readFileHeader_validates.2.1 [0, 0, 0, 0, 0] (by decide) (by decide)⟩

/-- C6: a block-compressed record-block is a 16-byte sync (with its sentinel)
followed by four size-prefixed sub-blocks (key-lengths, keys, value-lengths,
values) with VInt-encoded size prefixes; `ReadCompressedBlock` decodes the
key-lengths and value-lengths sub-blocks with the VInt codec, and when the
count of decoded key lengths equals the count of decoded value lengths it
returns exactly the buffered key/value pairs; a count mismatch is the fatal
`CountMismatchError` for the block. -/
theorem readCompressedBlock_layout (comp decomp : List Nat → List Nat)
    (hash : List Nat) (B : SeqBlock) (rest : List Nat)
    (hcd : ∀ l, decomp (comp l) = l) (hsync : hash.length = SYNC_HASH_SIZE) :
    (B.keys.length = B.values.length →
      readCompressedBlock decomp hash (serBlock comp hash B ++ rest) =
        .ok (B.keys.zip B.values, rest)) ∧
    (B.keys.length ≠ B.values.length →
      readCompressedBlock decomp hash (serBlock comp hash B ++ rest) =
        .error .countMismatch) := by
  have h := readCompressedBlock_ser comp decomp hcd hash hsync B rest
  constructor
  · intro hc
    rw [h, if_pos hc]
  · intro hc
    rw [h, if_neg hc]

/-- Witness for C6: a two-record block round-trips to its key/value pairs,
and a block with one key and no values fails with `CountMismatchError`. -/
theorem readCompressedBlock_layout_witness :
    readCompressedBlock id (List.range 16)
      (serBlock id (List.range 16) ⟨[[1, 2], [3]], [[5], [6, 7]]⟩ ++ [9]) =
      .ok ([([1, 2], [5]), ([3], [6, 7])], [9]) ∧
    readCompressedBlock id (List.range 16)
      (serBlock id (List.range 16) ⟨[[1, 2]], []⟩ ++ [9]) =
      .error .countMismatch := by
  constructor
  · exact (readCompressedBlock_layout id id (List.range 16)
      ⟨[[1, 2], [3]], [[5], [6, 7]]⟩ [9] (fun l => rfl) (by decide)).1 (by decide)
  · exact (readCompressedBlock_layout id id (List.range 16)
      ⟨[[1, 2]], []⟩ [9] (fun l => rfl) (by decide)).2 (by decide)

end SeqScan
